import Mathlib

/-!
Verification of the detached-JWS streaming serializer/deserializer
(`src/encode.rs`, `src/decode.rs`).

Bytes are modelled as `Nat` (with `< 256` side conditions where decoding
matters).  The base64url-no-padding codec models the behaviour of the
`base64` crate with the `URL_SAFE_NO_PAD` configuration, the JSON codec
models `serde_json` on `Map<String, Value>` headers (numbers restricted to
arbitrary-precision integers; `serde_json`'s float values are outside this
embedding), and the signing/verification backends are abstract state
machines mirroring the crate's `Sign`/`Verify` traits.
-/

namespace DetachedJws

/-- ASCII code of the base64url alphabet symbol for a 6-bit value
(the `URL_SAFE` character set: `A-Z`, `a-z`, `0-9`, `-`, `_`). -/
def b64char (v : Nat) : Nat :=
  if v < 26 then 65 + v
  else if v < 52 then 97 + (v - 26)
  else if v < 62 then 48 + (v - 52)
  else if v = 62 then 45
  else 95

/-- Partial inverse of `b64char`: maps an ASCII code back to its 6-bit
value, failing on bytes outside the url-safe alphabet (`=` included, as the
`NO_PAD` configuration has no padding symbol). -/
def b64inv (c : Nat) : Option Nat :=
  if 65 ≤ c ∧ c ≤ 90 then some (c - 65)
  else if 97 ≤ c ∧ c ≤ 122 then some (c - 97 + 26)
  else if 48 ≤ c ∧ c ≤ 57 then some (c - 48 + 52)
  else if c = 45 then some 62
  else if c = 95 then some 63
  else none

/-- base64url-no-padding encoding of a byte sequence: 3-byte groups become
4 symbols, a trailing group of 1 or 2 bytes becomes 2 or 3 symbols. -/
def b64encode : List Nat → List Nat
  | [] => []
  | [b0] => [b64char (b0 / 4), b64char (b0 % 4 * 16)]
  | [b0, b1] => [b64char (b0 / 4), b64char (b0 % 4 * 16 + b1 / 16), b64char (b1 % 16 * 4)]
  | b0 :: b1 :: b2 :: rest =>
      b64char (b0 / 4) :: b64char (b0 % 4 * 16 + b1 / 16) ::
      b64char (b1 % 16 * 4 + b2 / 64) :: b64char (b2 % 64) :: b64encode rest

/-- base64url-no-padding decoding: rejects symbols outside the alphabet,
a final group of length 1, and non-canonical encodings whose unused
trailing bits are not zero. -/
def b64decode : List Nat → Option (List Nat)
  | [] => some []
  | [_] => none
  | [c0, c1] => do
      let v0 ← b64inv c0
      let v1 ← b64inv c1
      if v1 % 16 = 0 then some [v0 * 4 + v1 / 16] else none
  | [c0, c1, c2] => do
      let v0 ← b64inv c0
      let v1 ← b64inv c1
      let v2 ← b64inv c2
      if v2 % 4 = 0 then some [v0 * 4 + v1 / 16, v1 % 16 * 16 + v2 / 4] else none
  | c0 :: c1 :: c2 :: c3 :: rest => do
      let v0 ← b64inv c0
      let v1 ← b64inv c1
      let v2 ← b64inv c2
      let v3 ← b64inv c3
      let tail ← b64decode rest
      some ((v0 * 4 + v1 / 16) :: (v1 % 16 * 16 + v2 / 4) :: (v2 % 4 * 64 + v3) :: tail)

theorem b64encode_nil : b64encode [] = [] := rfl

theorem b64encode_one (b0 : Nat) :
    b64encode [b0] = [b64char (b0 / 4), b64char (b0 % 4 * 16)] := rfl

theorem b64encode_two (b0 b1 : Nat) :
    b64encode [b0, b1] =
      [b64char (b0 / 4), b64char (b0 % 4 * 16 + b1 / 16), b64char (b1 % 16 * 4)] := rfl

theorem b64encode_cons3 (b0 b1 b2 : Nat) (rest : List Nat) :
    b64encode (b0 :: b1 :: b2 :: rest) =
      b64char (b0 / 4) :: b64char (b0 % 4 * 16 + b1 / 16) ::
      b64char (b1 % 16 * 4 + b2 / 64) :: b64char (b2 % 64) :: b64encode rest := rfl

theorem b64inv_b64char : ∀ v < 64, b64inv (b64char v) = some v := by decide

theorem b64char_lt : ∀ v < 64, b64char v < 128 := by decide

theorem b64char_ne_dot : ∀ v < 64, b64char v ≠ 46 := by decide

theorem b64encode_mem (l : List Nat) (h : ∀ b ∈ l, b < 256) :
    ∀ c ∈ b64encode l, ∃ v, v < 64 ∧ c = b64char v := by
  induction l using b64encode.induct with
  | case1 => intro c hc; simp [b64encode_nil] at hc
  | case2 b0 =>
    have hb0 : b0 < 256 := h b0 (by simp)
    intro c hc
    simp only [b64encode_one, List.mem_cons, List.not_mem_nil, or_false] at hc
    rcases hc with h | h
    · exact ⟨b0 / 4, by omega, h⟩
    · exact ⟨b0 % 4 * 16, by omega, h⟩
  | case3 b0 b1 =>
    have hb0 : b0 < 256 := h b0 (by simp)
    have hb1 : b1 < 256 := h b1 (by simp)
    intro c hc
    simp only [b64encode_two, List.mem_cons, List.not_mem_nil, or_false] at hc
    rcases hc with h | h | h
    · exact ⟨b0 / 4, by omega, h⟩
    · exact ⟨b0 % 4 * 16 + b1 / 16, by omega, h⟩
    · exact ⟨b1 % 16 * 4, by omega, h⟩
  | case4 b0 b1 b2 rest ih =>
    have hb0 : b0 < 256 := h b0 (by simp)
    have hb1 : b1 < 256 := h b1 (by simp)
    have hb2 : b2 < 256 := h b2 (by simp)
    have hrest : ∀ b ∈ rest, b < 256 := fun b hb => h b (by simp [hb])
    intro c hc
    simp only [b64encode_cons3, List.mem_cons] at hc
    rcases hc with h | h | h | h | h
    · exact ⟨b0 / 4, by omega, h⟩
    · exact ⟨b0 % 4 * 16 + b1 / 16, by omega, h⟩
    · exact ⟨b1 % 16 * 4 + b2 / 64, by omega, h⟩
    · exact ⟨b2 % 64, by omega, h⟩
    · exact ih hrest c h

theorem b64encode_ne_dot (l : List Nat) (h : ∀ b ∈ l, b < 256) :
    ∀ c ∈ b64encode l, c ≠ 46 := by
  intro c hc
  obtain ⟨v, hv, rfl⟩ := b64encode_mem l h c hc
  exact b64char_ne_dot v hv

theorem b64encode_lt (l : List Nat) (h : ∀ b ∈ l, b < 256) :
    ∀ c ∈ b64encode l, c < 256 := by
  intro c hc
  obtain ⟨v, hv, rfl⟩ := b64encode_mem l h c hc
  exact lt_trans (b64char_lt v hv) (by norm_num)

theorem b64decode_b64encode (l : List Nat) (h : ∀ b ∈ l, b < 256) :
    b64decode (b64encode l) = some l := by
  induction l using b64encode.induct with
  | case1 => rfl
  | case2 b0 =>
    have hb0 : b0 < 256 := h b0 (by simp)
    have e1 := b64inv_b64char (b0 / 4) (by omega)
    have e2 := b64inv_b64char (b0 % 4 * 16) (by omega)
    have c1 : b0 % 4 * 16 % 16 = 0 := by omega
    simp [b64encode_one, b64decode, e1, e2, c1]
    omega
  | case3 b0 b1 =>
    have hb0 : b0 < 256 := h b0 (by simp)
    have hb1 : b1 < 256 := h b1 (by simp)
    have e1 := b64inv_b64char (b0 / 4) (by omega)
    have e2 := b64inv_b64char (b0 % 4 * 16 + b1 / 16) (by omega)
    have e3 := b64inv_b64char (b1 % 16 * 4) (by omega)
    have c1 : b1 % 16 * 4 % 4 = 0 := by omega
    simp [b64encode_two, b64decode, e1, e2, e3, c1]
    constructor
    · omega
    · omega
  | case4 b0 b1 b2 rest ih =>
    have hb0 : b0 < 256 := h b0 (by simp)
    have hb1 : b1 < 256 := h b1 (by simp)
    have hb2 : b2 < 256 := h b2 (by simp)
    have hrest : ∀ b ∈ rest, b < 256 := fun b hb => h b (by simp [hb])
    have e1 := b64inv_b64char (b0 / 4) (by omega)
    have e2 := b64inv_b64char (b0 % 4 * 16 + b1 / 16) (by omega)
    have e3 := b64inv_b64char (b1 % 16 * 4 + b2 / 64) (by omega)
    have e4 := b64inv_b64char (b2 % 64) (by omega)
    simp [b64encode_cons3, b64decode, e1, e2, e3, e4, ih hrest]
    refine ⟨by omega, by omega, by omega⟩

theorem b64char_b64inv (c v : Nat) (h : b64inv c = some v) : v < 64 ∧ b64char v = c := by
  unfold b64inv at h
  unfold b64char
  split_ifs at h with h1 h2 h3 h4 h5 <;>
    simp only [Option.some.injEq] at h <;> subst h <;> split_ifs <;> omega

theorem b64encode_b64decode (x : List Nat) :
    ∀ y, b64decode x = some y → b64encode y = x ∧ ∀ b ∈ y, b < 256 := by
  induction x using b64decode.induct with
  | case1 =>
    intro y hy
    simp only [b64decode, Option.some.injEq] at hy
    subst hy
    exact ⟨rfl, by simp⟩
  | case2 c0 =>
    intro y hy
    simp [b64decode] at hy
  | case3 c0 c1 =>
    intro y hy
    simp only [b64decode, Option.bind_eq_bind] at hy
    cases hv0 : b64inv c0 with
    | none => simp [hv0] at hy
    | some v0 =>
      cases hv1 : b64inv c1 with
      | none => simp [hv0, hv1] at hy
      | some v1 =>
        simp only [hv0, hv1, Option.some_bind] at hy
        obtain ⟨hv0lt, hc0⟩ := b64char_b64inv c0 v0 hv0
        obtain ⟨hv1lt, hc1⟩ := b64char_b64inv c1 v1 hv1
        by_cases hz : v1 % 16 = 0
        · rw [if_pos hz] at hy
          simp only [Option.some.injEq] at hy
          subst hy
          refine ⟨?_, by intro b hb; simp at hb; omega⟩
          rw [b64encode_one]
          have e1 : (v0 * 4 + v1 / 16) / 4 = v0 := by omega
          have e2 : (v0 * 4 + v1 / 16) % 4 * 16 = v1 := by omega
          rw [e1, e2, hc0, hc1]
        · simp [hz] at hy
  | case4 c0 c1 c2 =>
    intro y hy
    simp only [b64decode, Option.bind_eq_bind] at hy
    cases hv0 : b64inv c0 with
    | none => simp [hv0] at hy
    | some v0 =>
      cases hv1 : b64inv c1 with
      | none => simp [hv0, hv1] at hy
      | some v1 =>
        cases hv2 : b64inv c2 with
        | none => simp [hv0, hv1, hv2] at hy
        | some v2 =>
          simp only [hv0, hv1, hv2, Option.some_bind] at hy
          obtain ⟨hv0lt, hc0⟩ := b64char_b64inv c0 v0 hv0
          obtain ⟨hv1lt, hc1⟩ := b64char_b64inv c1 v1 hv1
          obtain ⟨hv2lt, hc2⟩ := b64char_b64inv c2 v2 hv2
          by_cases hz : v2 % 4 = 0
          · rw [if_pos hz] at hy
            simp only [Option.some.injEq] at hy
            subst hy
            refine ⟨?_, by intro b hb; simp at hb; rcases hb with hb | hb <;> omega⟩
            rw [b64encode_two]
            have e1 : (v0 * 4 + v1 / 16) / 4 = v0 := by omega
            have e2 : (v0 * 4 + v1 / 16) % 4 * 16 + (v1 % 16 * 16 + v2 / 4) / 16 = v1 := by
              omega
            have e3 : (v1 % 16 * 16 + v2 / 4) % 16 * 4 = v2 := by omega
            rw [e1, e2, e3, hc0, hc1, hc2]
          · simp [hz] at hy
  | case5 c0 c1 c2 c3 rest ih =>
    intro y hy
    simp only [b64decode, Option.bind_eq_bind] at hy
    cases hv0 : b64inv c0 with
    | none => simp [hv0] at hy
    | some v0 =>
      cases hv1 : b64inv c1 with
      | none => simp [hv0, hv1] at hy
      | some v1 =>
        cases hv2 : b64inv c2 with
        | none => simp [hv0, hv1, hv2] at hy
        | some v2 =>
          cases hv3 : b64inv c3 with
          | none => simp [hv0, hv1, hv2, hv3] at hy
          | some v3 =>
            cases htail : b64decode rest with
            | none => simp [hv0, hv1, hv2, hv3, htail] at hy
            | some tail =>
              simp only [hv0, hv1, hv2, hv3, htail, Option.some_bind,
                Option.some.injEq] at hy
              subst hy
              obtain ⟨hv0lt, hc0⟩ := b64char_b64inv c0 v0 hv0
              obtain ⟨hv1lt, hc1⟩ := b64char_b64inv c1 v1 hv1
              obtain ⟨hv2lt, hc2⟩ := b64char_b64inv c2 v2 hv2
              obtain ⟨hv3lt, hc3⟩ := b64char_b64inv c3 v3 hv3
              obtain ⟨ihenc, ihlt⟩ := ih tail htail
              constructor
              · rw [b64encode_cons3]
                have e1 : (v0 * 4 + v1 / 16) / 4 = v0 := by omega
                have e2 : (v0 * 4 + v1 / 16) % 4 * 16 + (v1 % 16 * 16 + v2 / 4) / 16 = v1 := by
                  omega
                have e3 : (v1 % 16 * 16 + v2 / 4) % 16 * 4 + (v2 % 4 * 64 + v3) / 64 = v2 := by
                  omega
                have e4 : (v2 % 4 * 64 + v3) % 64 = v3 := by omega
                rw [e1, e2, e3, e4, hc0, hc1, hc2, hc3, ihenc]
              · intro b hb
                simp only [List.mem_cons] at hb
                rcases hb with hb | hb | hb | hb
                · omega
                · omega
                · omega
                · exact ihlt b hb

theorem b64encode_append (a b : List Nat) (h : a.length % 3 = 0) :
    b64encode (a ++ b) = b64encode a ++ b64encode b := by
  induction a using b64encode.induct with
  | case1 => simp [b64encode_nil]
  | case2 b0 => simp at h
  | case3 b0 b1 => simp at h
  | case4 b0 b1 b2 rest ih =>
    have hr : rest.length % 3 = 0 := by
      simp only [List.length_cons] at h; omega
    simp only [List.cons_append, b64encode_cons3, ih hr]

/-- Model of `input.split(|e| e == &DOT_BYTE)` on byte slices: the list of
fields between `'.'` (ASCII 46) separators.  Like Rust's slice `split`, it
always yields at least one (possibly empty) field. -/
def splitDot : List Nat → List (List Nat)
  | [] => [[]]
  | c :: rest =>
    if c = 46 then [] :: splitDot rest
    else
      match splitDot rest with
      | part :: parts => (c :: part) :: parts
      | [] => [[c]]

theorem splitDot_ne_nil (l : List Nat) : splitDot l ≠ [] := by
  cases l with
  | nil => simp [splitDot]
  | cons c rest =>
    simp only [splitDot]
    split_ifs
    · simp
    · cases h : splitDot rest <;> simp

theorem splitDot_no_dot (a : List Nat) (h : ∀ c ∈ a, c ≠ 46) : splitDot a = [a] := by
  induction a with
  | nil => rfl
  | cons c rest ih =>
    have hc : c ≠ 46 := h c (by simp)
    have hrest : ∀ x ∈ rest, x ≠ 46 := fun x hx => h x (by simp [hx])
    simp only [splitDot, if_neg hc, ih hrest]

theorem splitDot_append_dot (a r : List Nat) (h : ∀ c ∈ a, c ≠ 46) :
    splitDot (a ++ 46 :: r) = a :: splitDot r := by
  induction a with
  | nil => simp [splitDot]
  | cons c rest ih =>
    have hc : c ≠ 46 := h c (by simp)
    have hrest : ∀ x ∈ rest, x ≠ 46 := fun x hx => h x (by simp [hx])
    simp only [List.cons_append, splitDot, if_neg hc, List.append_eq, ih hrest]

/-- JSON values as used for headers (`serde_json::Value` with objects as
ordered maps and numbers restricted to arbitrary-precision integers;
strings are lists of Unicode scalar values). -/
inductive Json where
  | null
  | bool (b : Bool)
  | num (n : Int)
  | str (s : List Nat)
  | arr (elems : List Json)
  | obj (fields : List (List Nat × Json))

/-- A JWS header: the contents of a `serde_json::Map<String, Value>`
(a `BTreeMap`), as an association list strictly sorted by key. -/
abbrev JwsHeader := List (List Nat × Json)

/-- Strict lexicographic order on keys, mirroring the `Ord` instance of
Rust's `String` (UTF-8 byte order coincides with scalar-value order). -/
def keyLt : List Nat → List Nat → Bool
  | [], [] => false
  | [], _ :: _ => true
  | _ :: _, [] => false
  | a :: as, b :: bs => if a < b then true else if b < a then false else keyLt as bs

theorem keyLt_asymm (a b : List Nat) (h : keyLt a b = true) : keyLt b a = false := by
  induction a generalizing b with
  | nil => cases b with
    | nil => simp [keyLt] at h
    | cons x xs => simp [keyLt]
  | cons x xs ih =>
    cases b with
    | nil => simp [keyLt] at h
    | cons y ys =>
      simp only [keyLt] at h ⊢
      split_ifs at h ⊢ with h1 h2 h3 <;> try omega
      · rfl
      · exact ih ys h

theorem keyLt_irrefl (a : List Nat) : keyLt a a = false := by
  induction a with
  | nil => rfl
  | cons x xs ih => simp [keyLt, ih]

theorem keyLt_ne (a b : List Nat) (h : keyLt a b = true) : a ≠ b := by
  intro he
  subst he
  rw [keyLt_irrefl] at h
  exact Bool.false_ne_true h

/-- `BTreeMap::insert` on a sorted association list: keeps keys strictly
sorted, replacing the value when the key is already present. -/
def insertKey (k : List Nat) (v : Json) : JwsHeader → JwsHeader
  | [] => [(k, v)]
  | (k', v') :: rest =>
    if keyLt k k' then (k, v) :: (k', v') :: rest
    else if k = k' then (k, v) :: rest
    else (k', v') :: insertKey k v rest

theorem insertKey_keys_superset (k : List Nat) (v : Json) (h : JwsHeader) :
    ∀ k', (∃ w, (k', w) ∈ h) → ∃ w, (k', w) ∈ insertKey k v h := by
  induction h with
  | nil => intro k' ⟨w, hw⟩; simp at hw
  | cons kv rest ih =>
    obtain ⟨k0, v0⟩ := kv
    intro k' ⟨w, hw⟩
    simp only [List.mem_cons, Prod.mk.injEq] at hw
    simp only [insertKey]
    split_ifs with h1 h2
    · exact ⟨w, by simp [hw]⟩
    · rcases hw with ⟨he, _⟩ | hw
      · subst he; subst h2; exact ⟨v, by simp⟩
      · exact ⟨w, by simp [hw]⟩
    · rcases hw with ⟨he, hwe⟩ | hw
      · exact ⟨v0, by simp [he, hwe]⟩
      · obtain ⟨w', hw'⟩ := ih k' ⟨w, hw⟩
        exact ⟨w', by simp [hw']⟩

/-- Looking up a key in the association list (`Map::get`). -/
def lookupKey (k : List Nat) : JwsHeader → Option Json
  | [] => none
  | (k', v) :: rest => if k = k' then some v else lookupKey k rest

theorem lookupKey_insertKey (k : List Nat) (v : Json) (h : JwsHeader) :
    lookupKey k (insertKey k v h) = some v := by
  induction h with
  | nil => simp [insertKey, lookupKey]
  | cons kv rest ih =>
    obtain ⟨k0, v0⟩ := kv
    simp only [insertKey]
    split_ifs with h1 h2
    · simp [lookupKey]
    · simp [lookupKey]
    · have hne : k ≠ k0 := h2
      simp [lookupKey, hne, ih]

/-- ASCII code of a lowercase hex digit (`serde_json` uses lowercase in
`\u00XX` escapes). -/
def hexDigit (d : Nat) : Nat :=
  if d < 10 then 48 + d else 87 + d

/-- UTF-8 encoding of one Unicode scalar value. -/
def utf8Encode (c : Nat) : List Nat :=
  if c < 128 then [c]
  else if c < 2048 then [192 + c / 64, 128 + c % 64]
  else if c < 65536 then [224 + c / 4096, 128 + c / 64 % 64, 128 + c % 64]
  else [240 + c / 262144, 128 + c / 4096 % 64, 128 + c / 64 % 64, 128 + c % 64]

/-- `serde_json`'s string escaping: `"` and `\` get a backslash escape,
control characters below 0x20 get `\b`, `\t`, `\n`, `\f`, `\r` or a
`\u00XX` escape, everything else is UTF-8 encoded verbatim. -/
def escapeChar (c : Nat) : List Nat :=
  if c = 34 then [92, 34]
  else if c = 92 then [92, 92]
  else if c = 8 then [92, 98]
  else if c = 9 then [92, 116]
  else if c = 10 then [92, 110]
  else if c = 12 then [92, 102]
  else if c = 13 then [92, 114]
  else if c < 32 then [92, 117, 48, 48, hexDigit (c / 16), hexDigit (c % 16)]
  else utf8Encode c

/-- Serialized JSON string: a quoted, escaped scalar sequence. -/
def serializeString (s : List Nat) : List Nat :=
  34 :: s.flatMap escapeChar ++ [34]

/-- Decimal digits (ASCII) of a natural number, most significant first. -/
def serializeNat (n : Nat) : List Nat :=
  if n = 0 then [48] else (Nat.digits 10 n).reverse.map (· + 48)

/-- Decimal rendering of an integer (`itoa` semantics). -/
def serializeInt (n : Int) : List Nat :=
  if n < 0 then 45 :: serializeNat (-n).toNat else serializeNat n.toNat

mutual

/-- Compact JSON serialization (`serde_json::to_writer`): no whitespace,
object fields in map order. -/
def serializeJson : Json → List Nat
  | .null => [110, 117, 108, 108]
  | .bool true => [116, 114, 117, 101]
  | .bool false => [102, 97, 108, 115, 101]
  | .num n => serializeInt n
  | .str s => serializeString s
  | .arr l => 91 :: serializeArr l ++ [93]
  | .obj o => 123 :: serializeObj o ++ [125]

/-- Comma-separated serialization of array elements. -/
def serializeArr : List Json → List Nat
  | [] => []
  | [x] => serializeJson x
  | x :: y :: rest => serializeJson x ++ 44 :: serializeArr (y :: rest)

/-- Comma-separated serialization of object members (`"key":value`). -/
def serializeObj : List (List Nat × Json) → List Nat
  | [] => []
  | [(k, v)] => serializeString k ++ 58 :: serializeJson v
  | (k, v) :: m :: rest =>
      serializeString k ++ 58 :: serializeJson v ++ 44 :: serializeObj (m :: rest)

end

/-- A scalar value admissible in a Rust `String`: a Unicode scalar value
(below 0x110000 and not a surrogate). -/
def wfChar (c : Nat) : Bool :=
  decide (c < 1114112) && !(decide (55296 ≤ c) && decide (c < 57344))

/-- All scalars of the string are admissible. -/
def wfString (s : List Nat) : Bool :=
  s.all wfChar

/-- Adjacent keys strictly ascending: the `BTreeMap` ordering invariant. -/
def sortedKeys : List (List Nat × Json) → Bool
  | (k1, _) :: (k2, v2) :: rest => keyLt k1 k2 && sortedKeys ((k2, v2) :: rest)
  | _ => true

mutual

/-- Well-formedness of a JSON value as produced from Rust data: strings
are valid Unicode, object key lists are strictly sorted at every level. -/
def jsonWF : Json → Bool
  | .null => true
  | .bool _ => true
  | .num _ => true
  | .str s => wfString s
  | .arr l => jsonWFList l
  | .obj o => sortedKeys o && jsonWFObj o

/-- All array elements well-formed. -/
def jsonWFList : List Json → Bool
  | [] => true
  | x :: xs => jsonWF x && jsonWFList xs

/-- All object keys valid Unicode and all values well-formed. -/
def jsonWFObj : List (List Nat × Json) → Bool
  | [] => true
  | (k, v) :: rest => wfString k && jsonWF v && jsonWFObj rest

end

/-- JSON insignificant whitespace (space, tab, line feed, carriage return). -/
def isWsByte (b : Nat) : Bool :=
  b = 32 || b = 9 || b = 10 || b = 13

/-- Skip leading whitespace. -/
def skipWs : List Nat → List Nat
  | [] => []
  | b :: rest => if isWsByte b then skipWs rest else b :: rest

/-- Value of one hex digit byte (both cases accepted on input). -/
def hexVal (b : Nat) : Option Nat :=
  if 48 ≤ b ∧ b ≤ 57 then some (b - 48)
  else if 97 ≤ b ∧ b ≤ 102 then some (b - 87)
  else if 65 ≤ b ∧ b ≤ 70 then some (b - 55)
  else none

/-- Parse four hex digit bytes into their 16-bit value. -/
def parseHex4 : List Nat → Option (Nat × List Nat)
  | h1 :: h2 :: h3 :: h4 :: r =>
    match hexVal h1, hexVal h2, hexVal h3, hexVal h4 with
    | some v1, some v2, some v3, some v4 => some (((v1 * 16 + v2) * 16 + v3) * 16 + v4, r)
    | _, _, _, _ => none
  | _ => none

theorem parseHex4_length (r : List Nat) (v : Nat) (r1 : List Nat)
    (h : parseHex4 r = some (v, r1)) : r1.length + 4 = r.length := by
  match r with
  | h1 :: h2 :: h3 :: h4 :: rr =>
    simp only [parseHex4] at h
    cases hh1 : hexVal h1 with
    | none => simp [hh1] at h
    | some v1 =>
      cases hh2 : hexVal h2 with
      | none => simp [hh1, hh2] at h
      | some v2 =>
        cases hh3 : hexVal h3 with
        | none => simp [hh1, hh2, hh3] at h
        | some v3 =>
          cases hh4 : hexVal h4 with
          | none => simp [hh1, hh2, hh3, hh4] at h
          | some v4 =>
            simp only [hh1, hh2, hh3, hh4, Option.some.injEq, Prod.mk.injEq] at h
            obtain ⟨_, h2⟩ := h
            subst h2
            simp
  | [] => simp [parseHex4] at h
  | [_] => simp [parseHex4] at h
  | [_, _] => simp [parseHex4] at h
  | [_, _, _] => simp [parseHex4] at h

/-- Scalar value of a `\uXXXX` escape (after the `\u`): either a BMP
scalar, or a high surrogate that must be followed by `\u` and a low
surrogate, combining into a supplementary-plane scalar. -/
def parseUnicodeEscape (r : List Nat) : Option (Nat × List Nat) :=
  match parseHex4 r with
  | none => none
  | some (v, r1) =>
    if 55296 ≤ v ∧ v < 56320 then
      match r1 with
      | e2 :: u2 :: rr =>
        if e2 = 92 ∧ u2 = 117 then
          match parseHex4 rr with
          | some (w, r2) =>
            if 56320 ≤ w ∧ w < 57344 then
              some (65536 + (v - 55296) * 1024 + (w - 56320), r2)
            else none
          | none => none
        else none
      | _ => none
    else if 56320 ≤ v ∧ v < 57344 then none
    else some (v, r1)

theorem parseUnicodeEscape_length (r : List Nat) (v : Nat) (r1 : List Nat)
    (h : parseUnicodeEscape r = some (v, r1)) : r1.length < r.length := by
  unfold parseUnicodeEscape at h
  cases h4 : parseHex4 r with
  | none => simp [h4] at h
  | some p =>
    obtain ⟨w, rw'⟩ := p
    have hlen := parseHex4_length r w rw' h4
    simp only [h4] at h
    split_ifs at h with hs1 hs2
    · match rw' with
      | [] => simp at h
      | [_] => simp at h
      | e2 :: u2 :: rr =>
        dsimp only at h
        split_ifs at h with he
        cases h4b : parseHex4 rr with
        | none => simp [h4b] at h
        | some q =>
          obtain ⟨w2, r2⟩ := q
          have hlen2 := parseHex4_length rr w2 r2 h4b
          simp only [h4b] at h
          split_ifs at h with hs3
          simp only [Option.some.injEq, Prod.mk.injEq] at h
          obtain ⟨_, h2⟩ := h
          subst h2
          simp only [List.length_cons] at hlen
          omega
    · simp only [Option.some.injEq, Prod.mk.injEq] at h
      obtain ⟨_, h2⟩ := h
      subst h2
      omega

/-- Result of scanning one item of a JSON string body: the closing quote,
one decoded scalar, or a syntax error. -/
inductive StrStep where
  | done (rest : List Nat)
  | chr (c : Nat) (rest : List Nat)
  | fail

/-- Scan one item of a JSON string body: the closing quote ends the
string; a `\`-escape (including `\uXXXX` with surrogate pairs) or a
strictly validated UTF-8 sequence (no overlong forms, surrogates,
out-of-range values or bare control characters) yields one scalar. -/
def strStep : List Nat → StrStep
  | [] => .fail
  | b :: rest =>
    if b = 34 then .done rest
    else if b = 92 then
      match rest with
      | [] => .fail
      | e :: r =>
        if e = 34 then .chr 34 r
        else if e = 92 then .chr 92 r
        else if e = 47 then .chr 47 r
        else if e = 98 then .chr 8 r
        else if e = 102 then .chr 12 r
        else if e = 110 then .chr 10 r
        else if e = 114 then .chr 13 r
        else if e = 116 then .chr 9 r
        else if e = 117 then
          match parseUnicodeEscape r with
          | some p => .chr p.1 p.2
          | none => .fail
        else .fail
    else if b < 32 then .fail
    else if b < 128 then .chr b rest
    else if b < 194 then .fail
    else if b < 224 then
      match rest with
      | b1 :: r =>
        if 128 ≤ b1 ∧ b1 < 192 then .chr ((b - 192) * 64 + (b1 - 128)) r else .fail
      | [] => .fail
    else if b < 240 then
      match rest with
      | b1 :: b2 :: r =>
        if (128 ≤ b1 ∧ b1 < 192) ∧ (128 ≤ b2 ∧ b2 < 192) ∧
           (b = 224 → 160 ≤ b1) ∧ (b = 237 → b1 < 160) then
          .chr ((b - 224) * 4096 + (b1 - 128) * 64 + (b2 - 128)) r
        else .fail
      | _ => .fail
    else if b < 245 then
      match rest with
      | b1 :: b2 :: b3 :: r =>
        if (128 ≤ b1 ∧ b1 < 192) ∧ (128 ≤ b2 ∧ b2 < 192) ∧ (128 ≤ b3 ∧ b3 < 192) ∧
           (b = 240 → 144 ≤ b1) ∧ (b = 244 → b1 < 144) then
          .chr ((b - 240) * 262144 + (b1 - 128) * 4096 + (b2 - 128) * 64 + (b3 - 128)) r
        else .fail
      | _ => .fail
    else .fail

set_option maxRecDepth 4096 in
theorem strStep_length (s : List Nat) (c : Nat) (r : List Nat)
    (h : strStep s = .chr c r) : r.length < s.length := by
  rw [strStep.eq_def] at h
  match s with
  | [] => cases h
  | b :: rest =>
    dsimp only at h
    by_cases h34 : b = 34
    · rw [if_pos h34] at h; cases h
    · rw [if_neg h34] at h
      by_cases h92 : b = 92
      · rw [if_pos h92] at h
        match rest with
        | [] => cases h
        | e :: r0 =>
          dsimp only at h
          by_cases e1 : e = 34
          · rw [if_pos e1] at h; cases h; (try simp only [List.length_cons]); omega
          · rw [if_neg e1] at h
            by_cases e2 : e = 92
            · rw [if_pos e2] at h; cases h; (try simp only [List.length_cons]); omega
            · rw [if_neg e2] at h
              by_cases e3 : e = 47
              · rw [if_pos e3] at h; cases h; (try simp only [List.length_cons]); omega
              · rw [if_neg e3] at h
                by_cases e4 : e = 98
                · rw [if_pos e4] at h; cases h; (try simp only [List.length_cons]); omega
                · rw [if_neg e4] at h
                  by_cases e5 : e = 102
                  · rw [if_pos e5] at h; cases h; (try simp only [List.length_cons]); omega
                  · rw [if_neg e5] at h
                    by_cases e6 : e = 110
                    · rw [if_pos e6] at h; cases h; (try simp only [List.length_cons]); omega
                    · rw [if_neg e6] at h
                      by_cases e7 : e = 114
                      · rw [if_pos e7] at h; cases h; (try simp only [List.length_cons]); omega
                      · rw [if_neg e7] at h
                        by_cases e8 : e = 116
                        · rw [if_pos e8] at h; cases h; (try simp only [List.length_cons]); omega
                        · rw [if_neg e8] at h
                          by_cases e9 : e = 117
                          · rw [if_pos e9] at h
                            cases hu : parseUnicodeEscape r0 with
                            | none => rw [hu] at h; cases h
                            | some p =>
                              rw [hu] at h
                              dsimp only at h
                              cases h
                              have := parseUnicodeEscape_length _ _ _ hu
                              simp only [List.length_cons]
                              omega
                          · rw [if_neg e9] at h; cases h
      · rw [if_neg h92] at h
        by_cases hb1 : b < 32
        · rw [if_pos hb1] at h; cases h
        · rw [if_neg hb1] at h
          by_cases hb2 : b < 128
          · rw [if_pos hb2] at h; cases h; (try simp only [List.length_cons]); omega
          · rw [if_neg hb2] at h
            by_cases hb3 : b < 194
            · rw [if_pos hb3] at h; cases h
            · rw [if_neg hb3] at h
              by_cases hb4 : b < 224
              · rw [if_pos hb4] at h
                match rest with
                | [] => cases h
                | b1 :: r0 =>
                  dsimp only at h
                  split_ifs at h
                  cases h
                  simp only [List.length_cons]
                  omega
              · rw [if_neg hb4] at h
                by_cases hb5 : b < 240
                · rw [if_pos hb5] at h
                  match rest with
                  | [] => cases h
                  | [b1] => cases h
                  | b1 :: b2 :: r0 =>
                    dsimp only at h
                    split_ifs at h
                    cases h
                    simp only [List.length_cons]
                    omega
                · rw [if_neg hb5] at h
                  by_cases hb6 : b < 245
                  · rw [if_pos hb6] at h
                    match rest with
                    | [] => cases h
                    | [b1] => cases h
                    | [b1, b2] => cases h
                    | b1 :: b2 :: b3 :: r0 =>
                      dsimp only at h
                      split_ifs at h
                      cases h
                      simp only [List.length_cons]
                      omega
                  · rw [if_neg hb6] at h; cases h

/-- Body of a JSON string after the opening quote: repeatedly scan one
item, accumulating decoded scalars until the closing quote. -/
def parseStringLoop (s : List Nat) (acc : List Nat) : Option (List Nat × List Nat) :=
  match hs : strStep s with
  | .done rest => some (acc.reverse, rest)
  | .chr c rest => parseStringLoop rest (c :: acc)
  | .fail => none
termination_by s.length
decreasing_by
  have := strStep_length _ _ _ hs
  omega

/-- Is a decimal digit byte. -/
def isDigitB (b : Nat) : Bool :=
  48 ≤ b && b ≤ 57

/-- Split the longest prefix of decimal digit bytes. -/
def takeDigits : List Nat → List Nat × List Nat
  | [] => ([], [])
  | b :: rest =>
    if isDigitB b then
      let (ds, r) := takeDigits rest
      (b :: ds, r)
    else ([], b :: rest)

/-- After an integer literal the input must not continue with another
digit (leading-zero rule), a fraction or an exponent; the embedding
restricts `serde_json` numbers to integers, so `.`/`e`/`E` is rejected. -/
def numberEndOk : List Nat → Bool
  | [] => true
  | b :: _ => !(isDigitB b || b = 46 || b = 101 || b = 69)

/-- Numeric value of a big-endian list of decimal digit bytes. -/
def digitsToNat (l : List Nat) : Nat :=
  l.foldl (fun a b => a * 10 + (b - 48)) 0

/-- Parse an unsigned integer literal: either a lone `0` or a nonzero
leading digit followed by more digits. -/
def parseNatNum (s : List Nat) : Option (Nat × List Nat) :=
  match s with
  | [] => none
  | b :: rest =>
    if b = 48 then if numberEndOk rest then some (0, rest) else none
    else if 49 ≤ b ∧ b ≤ 57 then
      let p := takeDigits rest
      if numberEndOk p.2 then some (digitsToNat (b :: p.1), p.2) else none
    else none

/-- Parse a JSON number (integer-restricted): optional minus sign, then
an unsigned integer literal. -/
def parseNumber (s : List Nat) : Option (Json × List Nat) :=
  match s with
  | [] => none
  | b :: rest =>
    if b = 45 then (parseNatNum rest).map (fun p => (.num (-(p.1 : Int)), p.2))
    else (parseNatNum (b :: rest)).map (fun p => (.num (p.1 : Int), p.2))

mutual

/-- Recursive-descent JSON value parser (`serde_json::de`), fuelled on
nesting; dispatches on the first non-whitespace byte. -/
def parseValue (fuel : Nat) (s : List Nat) : Option (Json × List Nat) :=
  match fuel with
  | 0 => none
  | fuel + 1 =>
    match skipWs s with
    | [] => none
    | b :: rest =>
      if b = 110 then
        match rest with
        | c1 :: c2 :: c3 :: r =>
          if c1 = 117 ∧ c2 = 108 ∧ c3 = 108 then some (.null, r) else none
        | _ => none
      else if b = 116 then
        match rest with
        | c1 :: c2 :: c3 :: r =>
          if c1 = 114 ∧ c2 = 117 ∧ c3 = 101 then some (.bool true, r) else none
        | _ => none
      else if b = 102 then
        match rest with
        | c1 :: c2 :: c3 :: c4 :: r =>
          if c1 = 97 ∧ c2 = 108 ∧ c3 = 115 ∧ c4 = 101 then some (.bool false, r) else none
        | _ => none
      else if b = 34 then
        (parseStringLoop rest []).map (fun p => (.str p.1, p.2))
      else if b = 45 ∨ (48 ≤ b ∧ b ≤ 57) then
        parseNumber (b :: rest)
      else if b = 91 then
        match skipWs rest with
        | [] => parseArrElems fuel [] []
        | c :: r => if c = 93 then some (.arr [], r) else parseArrElems fuel (c :: r) []
      else if b = 123 then
        match skipWs rest with
        | [] => parseObjMembers fuel [] []
        | c :: r => if c = 125 then some (.obj [], r) else parseObjMembers fuel (c :: r) []
      else none

/-- Array element loop: value, then `,` to continue or `]` to finish
(elements accumulated in reverse). -/
def parseArrElems (fuel : Nat) (s : List Nat) (acc : List Json) : Option (Json × List Nat) :=
  match fuel with
  | 0 => none
  | fuel + 1 =>
    match parseValue fuel s with
    | none => none
    | some (v, rest) =>
      match skipWs rest with
      | [] => none
      | c :: r =>
        if c = 44 then parseArrElems fuel r (v :: acc)
        else if c = 93 then some (.arr (v :: acc).reverse, r)
        else none

/-- Object member loop: `"key" : value`, then `,` to continue or `}` to
finish; members are inserted into the accumulated map with `BTreeMap`
semantics (`insertKey`), as deserializing into `Map<String, Value>` does. -/
def parseObjMembers (fuel : Nat) (s : List Nat) (acc : JwsHeader) : Option (Json × List Nat) :=
  match fuel with
  | 0 => none
  | fuel + 1 =>
    match skipWs s with
    | [] => none
    | b :: rest =>
      if b = 34 then
        match parseStringLoop rest [] with
        | none => none
        | some (key, rest2) =>
          match skipWs rest2 with
          | [] => none
          | c :: rest3 =>
            if c = 58 then
              match parseValue fuel rest3 with
              | none => none
              | some (v, rest4) =>
                match skipWs rest4 with
                | [] => none
                | c2 :: r =>
                  if c2 = 44 then parseObjMembers fuel r (insertKey key v acc)
                  else if c2 = 125 then some (.obj (insertKey key v acc), r)
                  else none
            else none
      else none

end

/-- Top-level parse of a header (`serde_json::from_reader` into
`Map<String, Value>`): one JSON value, which must be an object, with
nothing but whitespace after it. -/
def jsonParseObject (bytes : List Nat) : Option JwsHeader :=
  match parseValue (2 * bytes.length + 1) bytes with
  | some (.obj o, rest) => if skipWs rest = [] then some o else none
  | _ => none

theorem hexVal_hexDigit : ∀ d < 16, hexVal (hexDigit d) = some d := by decide

theorem skipWs_cons (b : Nat) (l : List Nat) (h : isWsByte b = false) :
    skipWs (b :: l) = b :: l := by
  simp [skipWs, h]

theorem parseUnicodeEscape_ctrl (c : Nat) (h1 : c < 32) (tail : List Nat) :
    parseUnicodeEscape (48 :: 48 :: hexDigit (c / 16) :: hexDigit (c % 16) :: tail) =
      some (c, tail) := by
  unfold parseUnicodeEscape parseHex4
  dsimp only
  rw [hexVal_hexDigit (c / 16) (by omega), hexVal_hexDigit (c % 16) (by omega),
    show hexVal 48 = some 0 from rfl]
  dsimp only
  rw [if_neg (by omega), if_neg (by omega)]
  have hv : ((0 * 16 + 0) * 16 + c / 16) * 16 + c % 16 = c := by omega
  rw [hv]

theorem strStep_ascii (c : Nat) (h2 : c < 128) (h3 : c ≠ 34) (h4 : c ≠ 92)
    (h5 : ¬ c < 32) (tail : List Nat) : strStep (c :: tail) = .chr c tail := by
  simp only [strStep]
  rw [if_neg h3, if_neg h4, if_neg h5, if_pos h2]

theorem strStep_utf8_two (c : Nat) (h1 : 128 ≤ c) (h2 : c < 2048) (tail : List Nat) :
    strStep ((192 + c / 64) :: (128 + c % 64) :: tail) = .chr c tail := by
  rw [strStep.eq_def]
  dsimp only
  have h34 : ¬ (192 + c / 64 = 34) := by omega
  have h92 : ¬ (192 + c / 64 = 92) := by omega
  rw [if_neg h34, if_neg h92, if_neg (by omega), if_neg (by omega),
    if_neg (by omega), if_pos (by omega)]
  rw [if_pos (by omega)]
  have hv : (192 + c / 64 - 192) * 64 + (128 + c % 64 - 128) = c := by omega
  rw [hv]

theorem strStep_utf8_three (c : Nat) (h1 : 2048 ≤ c) (h2 : c < 65536)
    (h3 : ¬ (55296 ≤ c ∧ c < 57344)) (tail : List Nat) :
    strStep ((224 + c / 4096) :: (128 + c / 64 % 64) :: (128 + c % 64) :: tail) =
      .chr c tail := by
  rw [strStep.eq_def]
  dsimp only
  have h34 : ¬ (224 + c / 4096 = 34) := by omega
  have h92 : ¬ (224 + c / 4096 = 92) := by omega
  rw [if_neg h34, if_neg h92, if_neg (by omega), if_neg (by omega),
    if_neg (by omega), if_neg (by omega), if_pos (by omega)]
  rw [if_pos (by refine ⟨by omega, by omega, by omega, by omega⟩)]
  have hv : (224 + c / 4096 - 224) * 4096 + (128 + c / 64 % 64 - 128) * 64 +
      (128 + c % 64 - 128) = c := by omega
  rw [hv]

theorem strStep_utf8_four (c : Nat) (h1 : 65536 ≤ c) (h2 : c < 1114112) (tail : List Nat) :
    strStep ((240 + c / 262144) :: (128 + c / 4096 % 64) :: (128 + c / 64 % 64) ::
      (128 + c % 64) :: tail) = .chr c tail := by
  rw [strStep.eq_def]
  dsimp only
  have h34 : ¬ (240 + c / 262144 = 34) := by omega
  have h92 : ¬ (240 + c / 262144 = 92) := by omega
  rw [if_neg h34, if_neg h92, if_neg (by omega), if_neg (by omega),
    if_neg (by omega), if_neg (by omega), if_neg (by omega), if_pos (by omega)]
  rw [if_pos (by refine ⟨by omega, by omega, by omega, by omega, by omega⟩)]
  have hv : (240 + c / 262144 - 240) * 262144 + (128 + c / 4096 % 64 - 128) * 4096 +
      (128 + c / 64 % 64 - 128) * 64 + (128 + c % 64 - 128) = c := by omega
  rw [hv]

theorem strStep_escape_u (c : Nat) (h1 : c < 32) (tail : List Nat) :
    strStep (92 :: 117 :: 48 :: 48 :: hexDigit (c / 16) :: hexDigit (c % 16) :: tail) =
      .chr c tail := by
  rw [strStep.eq_def]
  norm_num
  rw [parseUnicodeEscape_ctrl c h1 tail]

theorem strStep_escape (c : Nat) (hc : wfChar c = true) (tail : List Nat) :
    strStep (escapeChar c ++ tail) = .chr c tail := by
  have hlt : c < 1114112 := by
    simp [wfChar] at hc; exact hc.1
  have hsur : ¬ (55296 ≤ c ∧ c < 57344) := by
    simp [wfChar] at hc; omega
  by_cases h34 : c = 34
  · subst h34; exact rfl
  · by_cases h92 : c = 92
    · subst h92; exact rfl
    · by_cases h8 : c = 8
      · subst h8; exact rfl
      · by_cases h9 : c = 9
        · subst h9; exact rfl
        · by_cases h10 : c = 10
          · subst h10; exact rfl
          · by_cases h12 : c = 12
            · subst h12; exact rfl
            · by_cases h13 : c = 13
              · subst h13; exact rfl
              · by_cases h32 : c < 32
                · have he : escapeChar c =
                      [92, 117, 48, 48, hexDigit (c / 16), hexDigit (c % 16)] := by
                    unfold escapeChar
                    rw [if_neg h34, if_neg h92, if_neg h8, if_neg h9, if_neg h10,
                      if_neg h12, if_neg h13, if_pos h32]
                  rw [he]
                  exact strStep_escape_u c h32 tail
                · have he : escapeChar c = utf8Encode c := by
                    unfold escapeChar
                    rw [if_neg h34, if_neg h92, if_neg h8, if_neg h9, if_neg h10,
                      if_neg h12, if_neg h13, if_neg h32]
                  rw [he]
                  by_cases hb1 : c < 128
                  · rw [show utf8Encode c = [c] from by unfold utf8Encode; rw [if_pos hb1]]
                    exact strStep_ascii c hb1 h34 h92 h32 tail
                  · by_cases hb2 : c < 2048
                    · rw [show utf8Encode c = [192 + c / 64, 128 + c % 64] from by
                        unfold utf8Encode; rw [if_neg hb1, if_pos hb2]]
                      exact strStep_utf8_two c (by omega) hb2 tail
                    · by_cases hb3 : c < 65536
                      · rw [show utf8Encode c =
                            [224 + c / 4096, 128 + c / 64 % 64, 128 + c % 64] from by
                          unfold utf8Encode; rw [if_neg hb1, if_neg hb2, if_pos hb3]]
                        exact strStep_utf8_three c (by omega) hb3 hsur tail
                      · rw [show utf8Encode c = [240 + c / 262144, 128 + c / 4096 % 64,
                            128 + c / 64 % 64, 128 + c % 64] from by
                          unfold utf8Encode; rw [if_neg hb1, if_neg hb2, if_neg hb3]]
                        exact strStep_utf8_four c (by omega) hlt tail

theorem parseStringLoop_done (s r acc : List Nat) (h : strStep s = .done r) :
    parseStringLoop s acc = some (acc.reverse, r) := by
  rw [parseStringLoop.eq_def]
  split
  · rename_i hs; rw [h] at hs; cases hs; rfl
  · rename_i hs; rw [h] at hs; cases hs
  · rename_i hs; rw [h] at hs; cases hs

theorem parseStringLoop_chr (s : List Nat) (c : Nat) (r acc : List Nat)
    (h : strStep s = .chr c r) :
    parseStringLoop s acc = parseStringLoop r (c :: acc) := by
  rw [parseStringLoop.eq_def]
  split
  · rename_i hs; rw [h] at hs; cases hs
  · rename_i hs; rw [h] at hs; cases hs; rfl
  · rename_i hs; rw [h] at hs; cases hs

theorem parseStringLoop_roundtrip (s : List Nat) (h : wfString s = true) :
    ∀ acc rest, parseStringLoop (s.flatMap escapeChar ++ 34 :: rest) acc =
      some (acc.reverse ++ s, rest) := by
  induction s with
  | nil =>
    intro acc rest
    rw [show (([] : List Nat).flatMap escapeChar ++ 34 :: rest) = 34 :: rest from rfl]
    rw [parseStringLoop_done (34 :: rest) rest acc rfl]
    simp
  | cons c cs ih =>
    have hc : wfChar c = true := by
      simp [wfString] at h; exact h.1
    have hcs : wfString cs = true := by
      simp [wfString] at h ⊢; exact h.2
    intro acc rest
    rw [List.flatMap_cons, List.append_assoc,
      parseStringLoop_chr _ c _ acc (strStep_escape c hc _)]
    rw [ih hcs (c :: acc) rest]
    simp

/-- The input does not begin with a decimal digit byte. -/
def notDigitStart : List Nat → Bool
  | [] => true
  | b :: _ => !(isDigitB b)

theorem numberEndOk_notDigitStart (l : List Nat) (h : numberEndOk l = true) :
    notDigitStart l = true := by
  cases l with
  | nil => rfl
  | cons b r =>
    simp [numberEndOk] at h
    simp [notDigitStart, h.1]

theorem takeDigits_append (dl rest : List Nat) (h : ∀ b ∈ dl, isDigitB b = true)
    (hr : notDigitStart rest = true) : takeDigits (dl ++ rest) = (dl, rest) := by
  induction dl with
  | nil =>
    cases rest with
    | nil => rfl
    | cons b r =>
      simp only [notDigitStart, Bool.not_eq_true'] at hr
      simp [takeDigits, hr]
  | cons d ds ih =>
    have hd : isDigitB d = true := h d (by simp)
    have hds : ∀ b ∈ ds, isDigitB b = true := fun b hb => h b (by simp [hb])
    simp only [List.cons_append, takeDigits, hd, if_pos, List.append_eq, ih hds]

theorem foldl_digits (l : List Nat) (a : Nat) :
    List.foldl (fun x d => x * 10 + (d - 48)) a (l.map (· + 48)) =
      a * 10 ^ l.length + Nat.ofDigits 10 l.reverse := by
  induction l generalizing a with
  | nil => simp [Nat.ofDigits]
  | cons d ds ih =>
    simp only [List.map_cons, List.foldl_cons]
    rw [show d + 48 - 48 = d from by omega, ih (a * 10 + d), List.reverse_cons,
      Nat.ofDigits_append]
    simp only [List.length_cons, List.length_reverse, Nat.ofDigits_singleton]
    ring

theorem digitsToNat_serialize (n : Nat) :
    digitsToNat ((Nat.digits 10 n).reverse.map (· + 48)) = n := by
  unfold digitsToNat
  rw [foldl_digits, List.reverse_reverse, Nat.ofDigits_digits]
  simp

theorem serializeNat_digits (m : Nat) : ∀ b ∈ serializeNat m, isDigitB b = true := by
  unfold serializeNat
  split_ifs with h0
  · intro b hb; simp at hb; subst hb; rfl
  · intro b hb
    simp only [List.mem_map, List.mem_reverse] at hb
    obtain ⟨d, hd, rfl⟩ := hb
    have : d < 10 := Nat.digits_lt_base (by norm_num) hd
    simp [isDigitB]
    omega

theorem serializeNat_head (m : Nat) :
    ∃ d tail, serializeNat m = d :: tail ∧ 48 ≤ d ∧ d ≤ 57 := by
  unfold serializeNat
  split_ifs with h0
  · exact ⟨48, [], rfl, by omega, by omega⟩
  · cases hrev : (Nat.digits 10 m).reverse with
    | nil =>
      exfalso
      have : Nat.digits 10 m = [] := by
        have := congrArg List.reverse hrev
        simpa using this
      exact Nat.digits_ne_nil_iff_ne_zero.mpr h0 this
    | cons d ds =>
      have hd : d ∈ Nat.digits 10 m := by
        rw [← List.mem_reverse, hrev]; simp
      have : d < 10 := Nat.digits_lt_base (by norm_num) hd
      exact ⟨d + 48, ds.map (· + 48), by simp [hrev], by omega, by omega⟩

theorem parseNatNum_roundtrip (n : Nat) (rest : List Nat) (hr : numberEndOk rest = true) :
    parseNatNum (serializeNat n ++ rest) = some (n, rest) := by
  by_cases h0 : n = 0
  · subst h0
    rw [show serializeNat 0 = [48] from rfl]
    simp [parseNatNum, hr]
  · have hne : Nat.digits 10 n ≠ [] := Nat.digits_ne_nil_iff_ne_zero.mpr h0
    cases hrev : (Nat.digits 10 n).reverse with
    | nil =>
      exfalso
      have : Nat.digits 10 n = [] := by
        have := congrArg List.reverse hrev
        simpa using this
      exact hne this
    | cons d ds =>
      have hdmem : d ∈ Nat.digits 10 n := by
        rw [← List.mem_reverse, hrev]; simp
      have hdlt : d < 10 := Nat.digits_lt_base (by norm_num) hdmem
      have hdig : Nat.digits 10 n = ds.reverse ++ [d] := by
        have := congrArg List.reverse hrev
        simpa using this
      have hdne : d ≠ 0 := by
        have hlast := Nat.getLast_digit_ne_zero 10 h0
        have h1 : (Nat.digits 10 n).getLast? = some d := by
          rw [hdig]
          exact List.getLast?_concat _
        have h2 : (Nat.digits 10 n).getLast? = some ((Nat.digits 10 n).getLast hne) :=
          List.getLast?_eq_getLast _ hne
        rw [h1] at h2
        intro hd0
        apply hlast
        have h3 : d = (Nat.digits 10 n).getLast hne := by
          injection h2
        rw [← h3, hd0]
      have hser : serializeNat n = (d + 48) :: ds.map (· + 48) := by
        unfold serializeNat
        rw [if_neg h0, hrev]
        simp
      rw [hser]
      unfold parseNatNum
      rw [List.cons_append]
      dsimp only
      have h48 : ¬ (d + 48 = 48) := by omega
      rw [if_neg h48, if_pos (by omega : 49 ≤ d + 48 ∧ d + 48 ≤ 57)]
      have hdig : ∀ b ∈ ds.map (· + 48), isDigitB b = true := by
        intro b hb
        simp only [List.mem_map] at hb
        obtain ⟨x, hx, rfl⟩ := hb
        have hxmem : x ∈ Nat.digits 10 n := by
          rw [← List.mem_reverse, hrev]; simp [hx]
        have : x < 10 := Nat.digits_lt_base (by norm_num) hxmem
        simp [isDigitB]; omega
      rw [takeDigits_append (ds.map (· + 48)) rest hdig (numberEndOk_notDigitStart rest hr)]
      simp only [hr, if_pos]
      have : (d + 48) :: ds.map (· + 48) = ((d :: ds).map (· + 48)) := by simp
      rw [this, show (d :: ds) = (Nat.digits 10 n).reverse from hrev.symm,
        digitsToNat_serialize]

theorem parseNumber_roundtrip (n : Int) (rest : List Nat) (hr : numberEndOk rest = true) :
    parseNumber (serializeInt n ++ rest) = some (.num n, rest) := by
  unfold serializeInt
  split_ifs with hneg
  · rw [List.cons_append]
    unfold parseNumber
    dsimp only
    rw [if_pos rfl, parseNatNum_roundtrip _ rest hr]
    simp only [Option.map_some']
    have : -(((-n).toNat : Nat) : Int) = n := by omega
    rw [this]
  · obtain ⟨d, tail, hd, h1, h2⟩ := serializeNat_head n.toNat
    rw [hd, List.cons_append]
    unfold parseNumber
    dsimp only
    rw [if_neg (by omega : ¬ d = 45), ← List.cons_append, ← hd,
      parseNatNum_roundtrip _ rest hr]
    simp only [Option.map_some']
    have : ((n.toNat : Nat) : Int) = n := by omega
    rw [this]

theorem Json.induction_on (P : Json → Prop)
    (hnull : P .null) (hbool : ∀ b, P (.bool b)) (hnum : ∀ n, P (.num n))
    (hstr : ∀ s, P (.str s))
    (harr : ∀ l, (∀ x ∈ l, P x) → P (.arr l))
    (hobj : ∀ o, (∀ kv ∈ o, P kv.2) → P (.obj o)) : ∀ v, P v := by
  intro v
  refine @Json.rec P (fun l => ∀ x ∈ l, P x) (fun o => ∀ kv ∈ o, P kv.2)
    (fun kv => P kv.2) hnull hbool hnum hstr harr hobj ?_ ?_ ?_ ?_ ?_ v
  · intro x hx
    simp at hx
  · intro hd tl ihh iht x hx
    rcases List.mem_cons.mp hx with h | h
    · exact h ▸ ihh
    · exact iht x h
  · intro kv hkv
    simp at hkv
  · intro hd tl ihh iht kv hkv
    rcases List.mem_cons.mp hkv with h | h
    · exact h ▸ ihh
    · exact iht kv h
  · intro fst snd ih
    exact ih

mutual

/-- Fuel sufficient for the recursive-descent parser on a serialized
value: one unit per `parseValue` entry plus one per collection element. -/
def needV : Json → Nat
  | .arr l => 2 + needVList l
  | .obj o => 2 + needVObj o
  | _ => 1

/-- Fuel for a list of serialized array elements. -/
def needVList : List Json → Nat
  | [] => 0
  | x :: xs => 1 + needV x + needVList xs

/-- Fuel for a list of serialized object members. -/
def needVObj : List (List Nat × Json) → Nat
  | [] => 0
  | (_, v) :: rest => 1 + needV v + needVObj rest

end

theorem keyLt_total (a : List Nat) : ∀ b, keyLt a b = false → a ≠ b → keyLt b a = true := by
  induction a with
  | nil =>
    intro b h1 h2
    cases b with
    | nil => exact absurd rfl h2
    | cons y ys => simp [keyLt] at h1
  | cons x xs ih =>
    intro b h1 h2
    cases b with
    | nil => rfl
    | cons y ys =>
      simp only [keyLt] at h1 ⊢
      by_cases hxy : x < y
      · rw [if_pos hxy] at h1; cases h1
      · rw [if_neg hxy] at h1
        by_cases hyx : y < x
        · rw [if_pos hyx]
        · rw [if_neg hyx] at h1
          rw [if_neg hyx, if_neg hxy]
          have hx : x = y := by omega
          subst hx
          exact ih ys h1 (fun he => h2 (by rw [he]))

theorem keyLt_trans (a : List Nat) : ∀ b c, keyLt a b = true → keyLt b c = true →
    keyLt a c = true := by
  induction a with
  | nil =>
    intro b c h1 h2
    cases b with
    | nil => simp [keyLt] at h1
    | cons y ys =>
      cases c with
      | nil => simp [keyLt] at h2
      | cons z zs => rfl
  | cons x xs ih =>
    intro b c h1 h2
    cases b with
    | nil => simp [keyLt] at h1
    | cons y ys =>
      cases c with
      | nil => simp [keyLt] at h2
      | cons z zs =>
        simp only [keyLt] at h1 h2 ⊢
        by_cases hxy : x < y <;> by_cases hyz : y < z
        · rw [if_pos (by omega : x < z)]
        · rw [if_pos hxy] at h1
          rw [if_neg hyz] at h2
          by_cases hzy : z < y
          · rw [if_pos hzy] at h2; cases h2
          · rw [if_pos (by omega : x < z)]
        · rw [if_neg hxy] at h1
          by_cases hyx : y < x
          · rw [if_pos hyx] at h1; cases h1
          · rw [if_pos (by omega : x < z)]
        · rw [if_neg hxy] at h1
          rw [if_neg hyz] at h2
          by_cases hyx : y < x
          · rw [if_pos hyx] at h1; cases h1
          · by_cases hzy : z < y
            · rw [if_pos hzy] at h2; cases h2
            · rw [if_neg hyx] at h1
              rw [if_neg hzy] at h2
              rw [if_neg (by omega : ¬ x < z), if_neg (by omega : ¬ z < x)]
              exact ih ys zs h1 h2

theorem insertKey_of_keys_lt (k : List Nat) (v : Json) (l : JwsHeader)
    (h : ∀ kv ∈ l, keyLt kv.1 k = true) : insertKey k v l = l ++ [(k, v)] := by
  induction l with
  | nil => rfl
  | cons kv rest ih =>
    obtain ⟨k0, v0⟩ := kv
    have hk0 : keyLt k0 k = true := h (k0, v0) (by simp)
    have h1 : keyLt k k0 = false := keyLt_asymm k0 k hk0
    have h2 : k ≠ k0 := fun he => keyLt_ne k0 k hk0 he.symm
    simp only [insertKey]
    rw [if_neg (by simp [h1]), if_neg h2, ih (fun kv hkv => h kv (by simp [hkv]))]
    simp

/-- Unfold `sortedKeys` at a cons cell. -/
theorem sortedKeys_cons (a : List Nat × Json) (l : JwsHeader) :
    sortedKeys (a :: l) = true ↔
      ((match l with
        | [] => True
        | b :: _ => keyLt a.1 b.1 = true) ∧ sortedKeys l = true) := by
  obtain ⟨k, v⟩ := a
  cases l with
  | nil => simp [sortedKeys]
  | cons b r =>
    obtain ⟨k2, v2⟩ := b
    simp [sortedKeys]

theorem sortedKeys_head_lt (k : List Nat) (v : Json) (l : JwsHeader)
    (h : sortedKeys ((k, v) :: l) = true) :
    ∀ kv ∈ l, keyLt k kv.1 = true := by
  induction l generalizing k v with
  | nil => intro kv hkv; simp at hkv
  | cons b r ih =>
    obtain ⟨k2, v2⟩ := b
    rw [sortedKeys_cons] at h
    obtain ⟨h1, h2⟩ := h
    intro kv hkv
    rcases List.mem_cons.mp hkv with he | hm
    · subst he; exact h1
    · exact keyLt_trans k k2 kv.1 h1 (ih k2 v2 h2 kv hm)

theorem numberEndOk_sep44 (x : List Nat) : numberEndOk (44 :: x) = true := rfl

theorem numberEndOk_sep93 (x : List Nat) : numberEndOk (93 :: x) = true := rfl

theorem numberEndOk_sep125 (x : List Nat) : numberEndOk (125 :: x) = true := rfl

theorem serializeInt_head (n : Int) :
    ∃ d tail, serializeInt n = d :: tail ∧ (d = 45 ∨ (48 ≤ d ∧ d ≤ 57)) := by
  unfold serializeInt
  split_ifs with hneg
  · exact ⟨45, _, rfl, Or.inl rfl⟩
  · obtain ⟨d, tail, hd, h1, h2⟩ := serializeNat_head n.toNat
    exact ⟨d, tail, by rw [hd], Or.inr ⟨h1, h2⟩⟩

/-- The first byte of any serialized JSON value: never whitespace and
never a closing delimiter or separator. -/
theorem serializeJson_head (v : Json) :
    ∃ c cs, serializeJson v = c :: cs ∧ isWsByte c = false ∧ c ≠ 93 ∧ c ≠ 125 ∧ c ≠ 44 := by
  cases v with
  | null => exact ⟨110, _, rfl, rfl, by omega, by omega, by omega⟩
  | bool b =>
    cases b with
    | true => exact ⟨116, _, rfl, rfl, by omega, by omega, by omega⟩
    | false => exact ⟨102, _, rfl, rfl, by omega, by omega, by omega⟩
  | num n =>
    obtain ⟨d, tail, hd, hor⟩ := serializeInt_head n
    refine ⟨d, tail, by rw [show serializeJson (.num n) = serializeInt n from rfl, hd],
      ?_, by omega, by omega, by omega⟩
    rcases hor with h | h
    · subst h; rfl
    · simp [isWsByte]; omega
  | str s => exact ⟨34, _, rfl, rfl, by omega, by omega, by omega⟩
  | arr l => exact ⟨91, _, rfl, rfl, by omega, by omega, by omega⟩
  | obj o => exact ⟨123, _, rfl, rfl, by omega, by omega, by omega⟩

theorem jsonWF_arr (l : List Json) : jsonWF (.arr l) = jsonWFList l := rfl

theorem jsonWF_obj (o : JwsHeader) : jsonWF (.obj o) = (sortedKeys o && jsonWFObj o) := rfl

theorem parseArrElems_round (pending : List Json)
    (hIH : ∀ x ∈ pending, jsonWF x = true → ∀ fuel rest, needV x ≤ fuel →
      numberEndOk rest = true → parseValue fuel (serializeJson x ++ rest) = some (x, rest))
    (hwf : jsonWFList pending = true) (hne : pending ≠ []) :
    ∀ acc fuel rest, needVList pending ≤ fuel →
      parseArrElems fuel (serializeArr pending ++ 93 :: rest) acc =
        some (.arr (acc.reverse ++ pending), rest) := by
  induction pending with
  | nil => exact absurd rfl hne
  | cons x xs ih =>
    intro acc fuel rest hfuel
    have hwx : jsonWF x = true := by
      have h := hwf; simp only [jsonWFList, Bool.and_eq_true] at h; exact h.1
    have hwxs : jsonWFList xs = true := by
      have h := hwf; simp only [jsonWFList, Bool.and_eq_true] at h; exact h.2
    match fuel with
    | 0 =>
      exfalso
      simp only [needVList] at hfuel
      omega
    | fuel + 1 =>
      rw [parseArrElems.eq_def]
      dsimp only
      cases xs with
      | nil =>
        rw [show serializeArr [x] = serializeJson x from rfl]
        rw [hIH x (by simp) hwx fuel (93 :: rest)
          (by simp only [needVList] at hfuel; omega) (numberEndOk_sep93 rest)]
        dsimp only
        rw [skipWs_cons 93 _ rfl]
        dsimp only
        rw [if_neg (by omega : ¬ (93 : Nat) = 44), if_pos rfl]
        simp
      | cons y ys =>
        rw [show serializeArr (x :: y :: ys) =
          serializeJson x ++ 44 :: serializeArr (y :: ys) from rfl]
        rw [List.append_assoc, List.cons_append]
        rw [hIH x (by simp) hwx fuel _
          (by simp only [needVList] at hfuel; omega) (numberEndOk_sep44 _)]
        dsimp only
        rw [skipWs_cons 44 _ rfl]
        dsimp only
        rw [if_pos rfl]
        rw [ih (fun z hz => hIH z (by simp [hz])) hwxs (by simp) (x :: acc) fuel rest
          (by simp only [needVList] at hfuel ⊢; omega)]
        simp

theorem parseObjMembers_round (pending : JwsHeader)
    (hIH : ∀ kv ∈ pending, jsonWF kv.2 = true → ∀ fuel rest, needV kv.2 ≤ fuel →
      numberEndOk rest = true →
      parseValue fuel (serializeJson kv.2 ++ rest) = some (kv.2, rest))
    (hwf : jsonWFObj pending = true) (hsorted : sortedKeys pending = true)
    (hne : pending ≠ []) :
    ∀ acc fuel rest, needVObj pending ≤ fuel →
      (∀ kv ∈ acc, ∀ kv2 ∈ pending, keyLt kv.1 kv2.1 = true) →
      parseObjMembers fuel (serializeObj pending ++ 125 :: rest) acc =
        some (.obj (acc ++ pending), rest) := by
  induction pending with
  | nil => exact absurd rfl hne
  | cons kv0 xs ih =>
    obtain ⟨k, v⟩ := kv0
    intro acc fuel rest hfuel hlt
    have hwk : wfString k = true := by
      have h := hwf; simp only [jsonWFObj, Bool.and_eq_true] at h; exact h.1.1
    have hwv : jsonWF v = true := by
      have h := hwf; simp only [jsonWFObj, Bool.and_eq_true] at h; exact h.1.2
    have hwxs : jsonWFObj xs = true := by
      have h := hwf; simp only [jsonWFObj, Bool.and_eq_true] at h; exact h.2
    have hsortxs : sortedKeys xs = true := ((sortedKeys_cons (k, v) xs).mp hsorted).2
    have hacc : ∀ kv ∈ acc, keyLt kv.1 k = true :=
      fun kv hkv => hlt kv hkv (k, v) (by simp)
    match fuel with
    | 0 =>
      exfalso
      simp only [needVObj] at hfuel
      omega
    | fuel + 1 =>
      rw [parseObjMembers.eq_def]
      dsimp only
      cases xs with
      | nil =>
        rw [show serializeObj [(k, v)] =
          34 :: (k.flatMap escapeChar ++ [34]) ++ 58 :: serializeJson v from rfl]
        simp only [List.cons_append, List.append_assoc, List.singleton_append]
        rw [skipWs_cons 34 _ rfl]
        dsimp only
        rw [if_pos rfl]
        rw [parseStringLoop_roundtrip k hwk []]
        dsimp only
        simp only [List.reverse_nil, List.nil_append]
        rw [skipWs_cons 58 _ rfl]
        dsimp only
        rw [if_pos rfl]
        rw [hIH (k, v) (by simp) hwv fuel (125 :: rest)
          (by dsimp only; simp only [needVObj] at hfuel; omega) (numberEndOk_sep125 rest)]
        dsimp only
        rw [skipWs_cons 125 _ rfl]
        dsimp only
        rw [if_neg (by omega : ¬ (125 : Nat) = 44), if_pos rfl]
        rw [insertKey_of_keys_lt k v acc hacc]
      | cons m ms =>
        rw [show serializeObj ((k, v) :: m :: ms) =
          34 :: (k.flatMap escapeChar ++ [34]) ++ 58 :: serializeJson v ++
            44 :: serializeObj (m :: ms) from rfl]
        simp only [List.cons_append, List.append_assoc, List.singleton_append]
        rw [skipWs_cons 34 _ rfl]
        dsimp only
        rw [if_pos rfl]
        rw [parseStringLoop_roundtrip k hwk []]
        dsimp only
        simp only [List.reverse_nil, List.nil_append]
        rw [skipWs_cons 58 _ rfl]
        dsimp only
        rw [if_pos rfl]
        rw [hIH (k, v) (by simp) hwv fuel _
          (by dsimp only; simp only [needVObj] at hfuel; omega) (numberEndOk_sep44 _)]
        dsimp only
        rw [skipWs_cons 44 _ rfl]
        dsimp only
        rw [if_pos rfl]
        have hlt2 : ∀ kv ∈ insertKey k v acc, ∀ kv2 ∈ m :: ms, keyLt kv.1 kv2.1 = true := by
          rw [insertKey_of_keys_lt k v acc hacc]
          intro kv hkv kv2 hkv2
          rcases List.mem_append.mp hkv with hm | hm
          · exact hlt kv hm kv2 (by simp [hkv2])
          · have hk : kv = (k, v) := by simpa using hm
            subst hk
            exact sortedKeys_head_lt k v (m :: ms) hsorted kv2 hkv2
        rw [ih (fun z hz => hIH z (by simp [hz])) hwxs hsortxs (by simp)
          (insertKey k v acc) fuel rest
          (by simp only [needVObj] at hfuel ⊢; omega) hlt2]
        rw [insertKey_of_keys_lt k v acc hacc]
        simp

theorem parseValue_round (v : Json) : jsonWF v = true →
    ∀ fuel rest, needV v ≤ fuel → numberEndOk rest = true →
      parseValue fuel (serializeJson v ++ rest) = some (v, rest) := by
  refine Json.induction_on (fun v => jsonWF v = true → ∀ fuel rest, needV v ≤ fuel →
    numberEndOk rest = true → parseValue fuel (serializeJson v ++ rest) = some (v, rest))
    ?_ ?_ ?_ ?_ ?_ ?_ v
  · intro _ fuel rest hfuel hrest
    match fuel with
    | 0 => exfalso; simp [needV] at hfuel
    | fuel + 1 =>
      rw [show serializeJson .null ++ rest = 110 :: 117 :: 108 :: 108 :: rest from rfl]
      rw [parseValue.eq_def]
      dsimp only
      rw [skipWs_cons 110 _ rfl]
      dsimp only
      norm_num
  · intro b _ fuel rest hfuel hrest
    match fuel with
    | 0 => exfalso; simp [needV] at hfuel
    | fuel + 1 =>
      cases b with
      | true =>
        rw [show serializeJson (.bool true) ++ rest = 116 :: 114 :: 117 :: 101 :: rest from rfl]
        rw [parseValue.eq_def]
        dsimp only
        rw [skipWs_cons 116 _ rfl]
        dsimp only
        norm_num
      | false =>
        rw [show serializeJson (.bool false) ++ rest =
          102 :: 97 :: 108 :: 115 :: 101 :: rest from rfl]
        rw [parseValue.eq_def]
        dsimp only
        rw [skipWs_cons 102 _ rfl]
        dsimp only
        norm_num
  · intro n _ fuel rest hfuel hrest
    match fuel with
    | 0 => exfalso; simp [needV] at hfuel
    | fuel + 1 =>
      obtain ⟨d, tail, hd, hor⟩ := serializeInt_head n
      rw [show serializeJson (.num n) = serializeInt n from rfl, hd, List.cons_append]
      rw [parseValue.eq_def]
      dsimp only
      rw [skipWs_cons d _ (by rcases hor with h | h <;> simp [isWsByte, h] <;> omega)]
      dsimp only
      rw [if_neg (by omega : ¬ d = 110), if_neg (by omega : ¬ d = 116),
        if_neg (by omega : ¬ d = 102), if_neg (by omega : ¬ d = 34),
        if_pos (by omega : d = 45 ∨ (48 ≤ d ∧ d ≤ 57))]
      rw [← List.cons_append, ← hd]
      exact parseNumber_roundtrip n rest hrest
  · intro s hwf fuel rest hfuel hrest
    match fuel with
    | 0 => exfalso; simp [needV] at hfuel
    | fuel + 1 =>
      rw [show serializeJson (.str s) = 34 :: (s.flatMap escapeChar ++ [34]) from rfl,
        List.cons_append]
      rw [parseValue.eq_def]
      dsimp only
      rw [skipWs_cons 34 _ rfl]
      dsimp only
      rw [if_neg (by omega : ¬ (34 : Nat) = 110), if_neg (by omega : ¬ (34 : Nat) = 116),
        if_neg (by omega : ¬ (34 : Nat) = 102), if_pos rfl]
      rw [List.append_assoc, List.singleton_append]
      rw [parseStringLoop_roundtrip s hwf []]
      simp
  · intro l hIH hwf fuel rest hfuel hrest
    match fuel with
    | 0 => exfalso; simp [needV] at hfuel
    | fuel + 1 =>
      cases l with
      | nil =>
        rw [show serializeJson (.arr []) ++ rest = 91 :: 93 :: rest from rfl]
        rw [parseValue.eq_def]
        dsimp only
        rw [skipWs_cons 91 _ rfl]
        dsimp only
        norm_num
        rw [skipWs_cons 93 _ rfl]
        dsimp only
        norm_num
      | cons x xs =>
        rw [show serializeJson (.arr (x :: xs)) = 91 :: (serializeArr (x :: xs) ++ [93])
          from rfl, List.cons_append]
        rw [parseValue.eq_def]
        dsimp only
        rw [skipWs_cons 91 _ rfl]
        dsimp only
        rw [if_neg (by omega : ¬ (91 : Nat) = 110), if_neg (by omega : ¬ (91 : Nat) = 116),
          if_neg (by omega : ¬ (91 : Nat) = 102), if_neg (by omega : ¬ (91 : Nat) = 34),
          if_neg (by omega : ¬ ((91 : Nat) = 45 ∨ (48 ≤ (91 : Nat) ∧ (91 : Nat) ≤ 57))),
          if_pos rfl]
        rw [List.append_assoc, List.singleton_append]
        obtain ⟨c, cs, hc, hcw, hc93, _, _⟩ := serializeJson_head x
        have hform : ∃ cs2, serializeArr (x :: xs) ++ 93 :: rest = c :: cs2 := by
          cases xs with
          | nil =>
            refine ⟨cs ++ 93 :: rest, ?_⟩
            rw [show serializeArr [x] = serializeJson x from rfl, hc]
            simp
          | cons y ys =>
            refine ⟨cs ++ 44 :: serializeArr (y :: ys) ++ 93 :: rest, ?_⟩
            rw [show serializeArr (x :: y :: ys) =
              serializeJson x ++ 44 :: serializeArr (y :: ys) from rfl, hc]
            simp
        obtain ⟨cs2, hform⟩ := hform
        rw [hform, skipWs_cons c _ hcw]
        dsimp only
        rw [if_neg hc93, ← hform]
        rw [parseArrElems_round (x :: xs) hIH (by rw [← jsonWF_arr]; exact hwf) (by simp)
          [] fuel rest (by simp only [needV] at hfuel; omega)]
        simp
  · intro o hIH hwf fuel rest hfuel hrest
    match fuel with
    | 0 => exfalso; simp [needV] at hfuel
    | fuel + 1 =>
      cases o with
      | nil =>
        rw [show serializeJson (.obj []) ++ rest = 123 :: 125 :: rest from rfl]
        rw [parseValue.eq_def]
        dsimp only
        rw [skipWs_cons 123 _ rfl]
        dsimp only
        norm_num
        rw [skipWs_cons 125 _ rfl]
        dsimp only
        norm_num
      | cons p ps =>
        obtain ⟨k, v⟩ := p
        have hwf2 : sortedKeys ((k, v) :: ps) = true ∧ jsonWFObj ((k, v) :: ps) = true := by
          rw [jsonWF_obj] at hwf
          simpa [Bool.and_eq_true] using hwf
        rw [show serializeJson (.obj ((k, v) :: ps)) =
          123 :: (serializeObj ((k, v) :: ps) ++ [125]) from rfl, List.cons_append]
        rw [parseValue.eq_def]
        dsimp only
        rw [skipWs_cons 123 _ rfl]
        dsimp only
        rw [if_neg (by omega : ¬ (123 : Nat) = 110), if_neg (by omega : ¬ (123 : Nat) = 116),
          if_neg (by omega : ¬ (123 : Nat) = 102), if_neg (by omega : ¬ (123 : Nat) = 34),
          if_neg (by omega : ¬ ((123 : Nat) = 45 ∨ (48 ≤ (123 : Nat) ∧ (123 : Nat) ≤ 57))),
          if_neg (by omega : ¬ (123 : Nat) = 91), if_pos rfl]
        rw [List.append_assoc, List.singleton_append]
        have hform : ∃ t, serializeObj ((k, v) :: ps) ++ 125 :: rest = 34 :: t := by
          cases ps with
          | nil =>
            refine ⟨(k.flatMap escapeChar ++ [34]) ++ 58 :: serializeJson v ++ 125 :: rest, ?_⟩
            rw [show serializeObj [(k, v)] =
              34 :: ((k.flatMap escapeChar ++ [34]) ++ 58 :: serializeJson v) from rfl]
            simp
          | cons m ms =>
            refine ⟨(k.flatMap escapeChar ++ [34]) ++ 58 :: serializeJson v ++
              44 :: serializeObj (m :: ms) ++ 125 :: rest, ?_⟩
            rw [show serializeObj ((k, v) :: m :: ms) =
              34 :: ((k.flatMap escapeChar ++ [34]) ++ 58 :: serializeJson v ++
                44 :: serializeObj (m :: ms)) from rfl]
            simp
        obtain ⟨t, hform⟩ := hform
        rw [hform, skipWs_cons 34 _ rfl]
        dsimp only
        rw [if_neg (by omega : ¬ (34 : Nat) = 125), ← hform]
        rw [parseObjMembers_round ((k, v) :: ps) hIH hwf2.2 hwf2.1 (by simp)
          [] fuel rest (by simp only [needV] at hfuel; omega)
          (fun kv hkv => absurd hkv (by simp))]
        simp

theorem jsonWFList_mem (l : List Json) (h : jsonWFList l = true) :
    ∀ x ∈ l, jsonWF x = true := by
  induction l with
  | nil => intro x hx; simp at hx
  | cons a as ih =>
    simp only [jsonWFList, Bool.and_eq_true] at h
    intro x hx
    rcases List.mem_cons.mp hx with he | hm
    · subst he; exact h.1
    · exact ih h.2 x hm

theorem jsonWFObj_mem (o : JwsHeader) (h : jsonWFObj o = true) :
    ∀ kv ∈ o, wfString kv.1 = true ∧ jsonWF kv.2 = true := by
  induction o with
  | nil => intro kv hkv; simp at hkv
  | cons a as ih =>
    obtain ⟨k, v⟩ := a
    simp only [jsonWFObj, Bool.and_eq_true] at h
    intro kv hkv
    rcases List.mem_cons.mp hkv with he | hm
    · subst he; exact ⟨h.1.1, h.1.2⟩
    · exact ih h.2 kv hm

theorem needVList_le (l : List Json)
    (h : ∀ x ∈ l, needV x ≤ 2 * (serializeJson x).length) :
    needVList l ≤ 2 * (serializeArr l).length + 1 := by
  induction l with
  | nil => simp [needVList]
  | cons x xs ih =>
    have hx := h x (by simp)
    have hxs := ih (fun z hz => h z (by simp [hz]))
    cases xs with
    | nil =>
      rw [show serializeArr [x] = serializeJson x from rfl]
      simp only [needVList]
      omega
    | cons y ys =>
      rw [show serializeArr (x :: y :: ys) =
        serializeJson x ++ 44 :: serializeArr (y :: ys) from rfl]
      simp only [needVList, List.length_append, List.length_cons] at hxs ⊢
      omega

theorem needVObj_le (o : JwsHeader)
    (h : ∀ kv ∈ o, needV kv.2 ≤ 2 * (serializeJson kv.2).length) :
    needVObj o ≤ 2 * (serializeObj o).length + 1 := by
  induction o with
  | nil => simp [needVObj]
  | cons kv xs ih =>
    obtain ⟨k, v⟩ := kv
    have hx : needV v ≤ 2 * (serializeJson v).length := h (k, v) (by simp)
    have hxs := ih (fun z hz => h z (by simp [hz]))
    cases xs with
    | nil =>
      rw [show serializeObj [(k, v)] = serializeString k ++ 58 :: serializeJson v from rfl]
      simp only [needVObj, List.length_append, List.length_cons]
      omega
    | cons m ms =>
      rw [show serializeObj ((k, v) :: m :: ms) = serializeString k ++ 58 :: serializeJson v ++
        44 :: serializeObj (m :: ms) from rfl]
      simp only [needVObj, List.length_append, List.length_cons] at hxs ⊢
      omega

theorem needV_le (v : Json) : needV v ≤ 2 * (serializeJson v).length := by
  refine Json.induction_on (fun v => needV v ≤ 2 * (serializeJson v).length)
    ?_ ?_ ?_ ?_ ?_ ?_ v
  · simp [needV, serializeJson]
  · intro b
    cases b <;> simp [needV, serializeJson]
  · intro n
    obtain ⟨d, t, hd, _⟩ := serializeInt_head n
    rw [show serializeJson (.num n) = serializeInt n from rfl, hd]
    simp only [needV, List.length_cons]
    omega
  · intro s
    rw [show serializeJson (.str s) = 34 :: (s.flatMap escapeChar ++ [34]) from rfl]
    simp only [needV, List.length_cons]
    omega
  · intro l hIH
    rw [show serializeJson (.arr l) = 91 :: (serializeArr l ++ [93]) from rfl]
    have := needVList_le l hIH
    simp only [needV, List.length_cons, List.length_append]
    omega
  · intro o hIH
    rw [show serializeJson (.obj o) = 123 :: (serializeObj o ++ [125]) from rfl]
    have := needVObj_le o hIH
    simp only [needV, List.length_cons, List.length_append]
    omega

theorem jsonParseObject_round (o : JwsHeader) (hwf : jsonWF (.obj o) = true) :
    jsonParseObject (serializeJson (.obj o)) = some o := by
  unfold jsonParseObject
  have hneed : needV (.obj o) ≤ 2 * (serializeJson (.obj o)).length + 1 := by
    have := needV_le (.obj o)
    omega
  have h := parseValue_round (.obj o) hwf (2 * (serializeJson (.obj o)).length + 1) []
    hneed rfl
  rw [List.append_nil] at h
  rw [h]
  dsimp only
  simp [skipWs]

theorem hexDigit_lt (d : Nat) (h : d < 16) : hexDigit d < 256 := by
  unfold hexDigit
  split_ifs <;> omega

theorem utf8Encode_lt (c : Nat) (hc : c < 1114112) : ∀ b ∈ utf8Encode c, b < 256 := by
  unfold utf8Encode
  split_ifs with h1 h2 h3 <;>
    (intro b hb
     simp only [List.mem_cons, List.not_mem_nil, or_false] at hb) <;>
    (rcases hb with h | h | h | h <;> try subst h) <;> omega

theorem escapeChar_lt (c : Nat) (hc : wfChar c = true) : ∀ b ∈ escapeChar c, b < 256 := by
  have hlt : c < 1114112 := by
    simp [wfChar] at hc
    exact hc.1
  unfold escapeChar
  split_ifs with h1 h2 h3 h4 h5 h6 h7 h8
  any_goals
    (intro b hb
     simp only [List.mem_cons, List.not_mem_nil, or_false] at hb
     rcases hb with h | h | h | h | h | h <;> try subst h
     all_goals first
       | omega
       | (exact hexDigit_lt _ (by omega)))
  exact utf8Encode_lt c hlt

theorem serializeString_lt (s : List Nat) (hs : wfString s = true) :
    ∀ b ∈ serializeString s, b < 256 := by
  intro b hb
  unfold serializeString at hb
  rcases List.mem_cons.mp hb with he | hm
  · omega
  · rcases List.mem_append.mp hm with hf | hq
    · obtain ⟨c, hc, hbc⟩ := List.mem_flatMap.mp hf
      have hcw : wfChar c = true := by
        simp only [wfString, List.all_eq_true] at hs
        exact hs c hc
      exact escapeChar_lt c hcw b hbc
    · simp at hq
      omega

theorem serializeInt_lt (n : Int) : ∀ b ∈ serializeInt n, b < 256 := by
  intro b hb
  unfold serializeInt at hb
  have hnat : ∀ m : Nat, ∀ b ∈ serializeNat m, b < 256 := by
    intro m b hb
    have := serializeNat_digits m b hb
    simp [isDigitB] at this
    omega
  split_ifs at hb
  · simp only [List.mem_cons] at hb
    rcases hb with h | h
    · omega
    · exact hnat _ b h
  · exact hnat _ b hb

theorem serializeArr_lt (l : List Json)
    (h : ∀ x ∈ l, ∀ b ∈ serializeJson x, b < 256) :
    ∀ b ∈ serializeArr l, b < 256 := by
  induction l with
  | nil => intro b hb; simp [show serializeArr [] = [] from rfl] at hb
  | cons x xs ih =>
    intro b hb
    cases xs with
    | nil =>
      rw [show serializeArr [x] = serializeJson x from rfl] at hb
      exact h x (by simp) b hb
    | cons y ys =>
      rw [show serializeArr (x :: y :: ys) =
        serializeJson x ++ 44 :: serializeArr (y :: ys) from rfl] at hb
      rcases List.mem_append.mp hb with h1 | h2
      · exact h x (by simp) b h1
      · rcases List.mem_cons.mp h2 with he | h3
        · omega
        · exact ih (fun z hz => h z (by simp [hz])) b h3

theorem serializeObj_lt (o : JwsHeader)
    (hk : ∀ kv ∈ o, wfString kv.1 = true)
    (h : ∀ kv ∈ o, ∀ b ∈ serializeJson kv.2, b < 256) :
    ∀ b ∈ serializeObj o, b < 256 := by
  induction o with
  | nil => intro b hb; simp [show serializeObj [] = [] from rfl] at hb
  | cons kv xs ih =>
    obtain ⟨k, v⟩ := kv
    intro b hb
    cases xs with
    | nil =>
      rw [show serializeObj [(k, v)] = serializeString k ++ 58 :: serializeJson v from rfl]
        at hb
      rcases List.mem_append.mp hb with h1 | h2
      · exact serializeString_lt k (hk (k, v) (by simp)) b h1
      · rcases List.mem_cons.mp h2 with he | h3
        · omega
        · exact h (k, v) (by simp) b h3
    | cons m ms =>
      rw [show serializeObj ((k, v) :: m :: ms) = serializeString k ++ 58 :: serializeJson v ++
        44 :: serializeObj (m :: ms) from rfl] at hb
      rcases List.mem_append.mp hb with h1 | h2
      · rcases List.mem_append.mp h1 with h3 | h4
        · exact serializeString_lt k (hk (k, v) (by simp)) b h3
        · rcases List.mem_cons.mp h4 with he | h5
          · omega
          · exact h (k, v) (by simp) b h5
      · rcases List.mem_cons.mp h2 with he | h3
        · omega
        · exact ih (fun z hz => hk z (by simp [hz]))
            (fun z hz => h z (by simp [hz])) b h3

theorem serializeJson_lt (v : Json) (hwf : jsonWF v = true) :
    ∀ b ∈ serializeJson v, b < 256 := by
  refine Json.induction_on (fun v => jsonWF v = true → ∀ b ∈ serializeJson v, b < 256)
    ?_ ?_ ?_ ?_ ?_ ?_ v hwf
  · intro _ b hb
    simp [serializeJson] at hb
    rcases hb with h | h | h | h <;> omega
  · intro bo _ b hb
    cases bo <;> simp [serializeJson] at hb <;> omega
  · intro n _ b hb
    exact serializeInt_lt n b hb
  · intro s hs b hb
    exact serializeString_lt s hs b hb
  · intro l hIH hwfl b hb
    rw [show serializeJson (.arr l) = 91 :: (serializeArr l ++ [93]) from rfl] at hb
    simp only [List.mem_cons, List.mem_append] at hb
    have hwfl2 : jsonWFList l = true := by rwa [jsonWF_arr] at hwfl
    have helem := jsonWFList_mem l hwfl2
    rcases hb with h | h | h
    · omega
    · exact serializeArr_lt l (fun x hx => hIH x hx (helem x hx)) b h
    · simp at h; omega
  · intro o hIH hwfo b hb
    rw [show serializeJson (.obj o) = 123 :: (serializeObj o ++ [125]) from rfl] at hb
    simp only [List.mem_cons, List.mem_append] at hb
    have hwfo2 : jsonWFObj o = true := by
      rw [jsonWF_obj] at hwfo
      rw [Bool.and_eq_true] at hwfo
      exact hwfo.2
    have helem := jsonWFObj_mem o hwfo2
    rcases hb with h | h | h
    · omega
    · exact serializeObj_lt o (fun kv hkv => (helem kv hkv).1)
        (fun kv hkv => hIH kv hkv (helem kv hkv).2) b h
    · simp at h; omega

theorem sortedKeys_insertKey (k : List Nat) (v : Json) (l : JwsHeader)
    (h : sortedKeys l = true) : sortedKeys (insertKey k v l) = true := by
  induction l with
  | nil => rfl
  | cons kv rest ih =>
    obtain ⟨k0, v0⟩ := kv
    rw [sortedKeys_cons] at h
    obtain ⟨hhead, hrest⟩ := h
    simp only [insertKey]
    split_ifs with h1 h2
    · rw [sortedKeys_cons]
      refine ⟨h1, ?_⟩
      rw [sortedKeys_cons]
      exact ⟨hhead, hrest⟩
    · subst h2
      rw [sortedKeys_cons]
      exact ⟨hhead, hrest⟩
    · have hk0k : keyLt k0 k = true := by
        refine keyLt_total k k0 ?_ h2
        simpa using h1
      rw [sortedKeys_cons]
      refine ⟨?_, ih hrest⟩
      cases rest with
      | nil =>
        simp only [insertKey]
        exact hk0k
      | cons p ps =>
        obtain ⟨k1, v1⟩ := p
        simp only [insertKey]
        split_ifs with g1 g2
        · exact hk0k
        · exact hk0k
        · exact hhead

theorem jsonWFObj_insertKey (k : List Nat) (v : Json) (l : JwsHeader)
    (hk : wfString k = true) (hv : jsonWF v = true) (h : jsonWFObj l = true) :
    jsonWFObj (insertKey k v l) = true := by
  induction l with
  | nil =>
    simp only [insertKey, jsonWFObj, Bool.and_eq_true]
    exact ⟨⟨hk, hv⟩, trivial⟩
  | cons kv rest ih =>
    obtain ⟨k0, v0⟩ := kv
    simp only [jsonWFObj, Bool.and_eq_true] at h
    simp only [insertKey]
    split_ifs with h1 h2
    · simp only [jsonWFObj, Bool.and_eq_true]
      exact ⟨⟨hk, hv⟩, ⟨h.1.1, h.1.2⟩, h.2⟩
    · simp only [jsonWFObj, Bool.and_eq_true]
      exact ⟨⟨hk, hv⟩, h.2⟩
    · simp only [jsonWFObj, Bool.and_eq_true]
      exact ⟨⟨h.1.1, h.1.2⟩, ih h.2⟩

/-- The error taxonomy of the pipelines.  The `formatError`,
`headerFormatError` and `signatureFormatError` constructors correspond to
the `anyhow` contexts "wrong jws format", "wrong jws header format" and
"wrong jws signature format"; `alreadyFinished` to "has already had
finish() called"; `signatureInvalid` to "incorrect signature";
`cryptoError` to a failure propagated from the signing or verification
primitive.  `panicked` models a Rust panic (an abort, not a returned
error), raised by the base64 `EncoderWriter` when used after `finish`
has taken its inner writer. -/
inductive JwsError where
  | formatError
  | headerFormatError
  | signatureFormatError
  | verifierNotFound
  | signatureInvalid
  | cryptoError
  | alreadyFinished
  | panicked
deriving DecidableEq

/-- Is one of the three token-format errors. -/
def JwsError.isFormat : JwsError → Bool
  | .formatError => true
  | .headerFormatError => true
  | .signatureFormatError => true
  | _ => false

/-- The `Sign` trait: an incremental byte consumer (its `Write` impl)
with a `get_sign` operation producing the raw signature (`none` models a
failing crypto backend). -/
structure Sign (α : Type) where
  write : α → List Nat → α
  getSign : α → Option (List Nat)

/-- The `Verify` trait: an incremental byte consumer with a `verify`
operation checking a candidate signature (`none` models a failing crypto
backend, `some b` a successful run reporting match/mismatch). -/
structure Verify (β : Type) where
  write : β → List Nat → β
  verify : β → List Nat → Option Bool

/-- State of a `base64::write::EncoderWriter` with the `URL_SAFE_NO_PAD`
configuration: the inner writer (`none` once `finish` has taken it) and
the 0–2 leftover input bytes carried between writes. -/
structure EncState (α : Type) where
  sink : Option α
  buf : List Nat

/-- `EncoderWriter::write`: panics if `finish` has been called; otherwise
encodes the longest 3-aligned prefix of the buffered and new input to the
inner writer and retains the remainder. -/
def encWrite (wr : α → List Nat → α) (e : EncState α) (chunk : List Nat) :
    Except JwsError (EncState α) :=
  match e.sink with
  | none => .error .panicked
  | some a =>
    let data := e.buf ++ chunk
    let k := data.length - data.length % 3
    if k = 0 then .ok ⟨some a, data⟩
    else .ok ⟨some (wr a (b64encode (data.take k))), data.drop k⟩

/-- `EncoderWriter::finish`: panics on a second call; otherwise encodes
the final partial group and hands back the inner writer. -/
def encFinish (wr : α → List Nat → α) (e : EncState α) :
    Except JwsError (α × EncState α) :=
  match e.sink with
  | none => .error .panicked
  | some a =>
    let a2 := if e.buf.isEmpty then a else wr a (b64encode e.buf)
    .ok (a2, ⟨none, []⟩)

/-- The byte sequence of the `"alg"` key. -/
def algKey : List Nat := [97, 108, 103]

/-- `SerializeJwsWriter`: the output accumulated in the delegate writer
(`none` after `finish`) and the base64 encoder wrapping the signer. -/
structure SerializeJwsWriter (α : Type) where
  delegate : Option (List Nat)
  encoder : EncState α

/-- `SerializeJwsWriter::new`: inserts `alg`, encodes the header, feeds
`encoded_header ++ "."` to the signer and stages `encoded_header ++ ".."`
as the beginning of the output. -/
def SerializeJwsWriter.new (S : Sign α) (writer : List Nat) (algorithm : List Nat)
    (header : JwsHeader) (signer : α) : SerializeJwsWriter α :=
  let header2 := insertKey algKey (Json.str algorithm) header
  let encodedHeader := b64encode (serializeJson (Json.obj header2))
  let signer2 := S.write (S.write signer encodedHeader) [46]
  { delegate := some (writer ++ encodedHeader ++ [46] ++ [46]),
    encoder := { sink := some signer2, buf := [] } }

/-- The serializer's `Write::write`: forwards to the base64 encoder. -/
def SerializeJwsWriter.write (wr : α → List Nat → α) (w : SerializeJwsWriter α)
    (chunk : List Nat) : Except JwsError (SerializeJwsWriter α) :=
  match encWrite wr w.encoder chunk with
  | .error e => .error e
  | .ok e2 => .ok { w with encoder := e2 }

/-- `SerializeJwsWriter::finish`: bails with the already-finished error if
the delegate was taken; otherwise flushes the encoder, obtains the
signature, appends its base64 encoding and hands the output back. -/
def SerializeJwsWriter.finish (S : Sign α) (w : SerializeJwsWriter α) :
    Except JwsError (List Nat × SerializeJwsWriter α) :=
  match w.delegate with
  | none => .error .alreadyFinished
  | some out =>
    match encFinish S.write w.encoder with
    | .error e => .error e
    | .ok (signer, e2) =>
      match S.getSign signer with
      | none => .error .cryptoError
      | some signature =>
        .ok (out ++ b64encode signature, { delegate := none, encoder := e2 })

/-- A sequence of `write` calls on the serializer. -/
def SerializeJwsWriter.writeAll (wr : α → List Nat → α) (w : SerializeJwsWriter α)
    (chunks : List (List Nat)) : Except JwsError (SerializeJwsWriter α) :=
  match chunks with
  | [] => .ok w
  | c :: cs =>
    match SerializeJwsWriter.write wr w c with
    | .error e => .error e
    | .ok w2 => SerializeJwsWriter.writeAll wr w2 cs

/-- One-shot `serialize`: construct the writer over an empty output
vector, stream the payload through it and finish. -/
def serialize (S : Sign α) (algorithm : List Nat) (header : JwsHeader)
    (payload : List Nat) (signer : α) : Except JwsError (List Nat) :=
  let w := SerializeJwsWriter.new S [] algorithm header signer
  match SerializeJwsWriter.write S.write w payload with
  | .error e => .error e
  | .ok w2 =>
    match SerializeJwsWriter.finish S w2 with
    | .error e => .error e
    | .ok (token, _) => .ok token

/-- `DeserializeJwsWriter`: the base64 encoder wrapping the verifier, the
parsed header (`none` after a successful `finish`) and the decoded
candidate signature. -/
structure DeserializeJwsWriter (β : Type) where
  encoder : EncState β
  header : Option JwsHeader
  signature : List Nat

/-- `DeserializeJwsWriter::new`: splits the token on `'.'`, decodes and
parses the first field as the header, skips the second field, decodes the
third field as the signature, asks the selector for a verifier and feeds
it `field1 ++ "."`. -/
def DeserializeJwsWriter.new (V : Verify β) (jws : List Nat)
    (selector : JwsHeader → Option β) : Except JwsError (DeserializeJwsWriter β) :=
  match splitDot jws with
  | [] => .error .formatError
  | encodedHeader :: restParts =>
    match b64decode encodedHeader with
    | none => .error .headerFormatError
    | some headerBytes =>
      match jsonParseObject headerBytes with
      | none => .error .headerFormatError
      | some header =>
        match restParts with
        | _ :: part3 :: _ =>
          match b64decode part3 with
          | none => .error .signatureFormatError
          | some signature =>
            match selector header with
            | none => .error .verifierNotFound
            | some verifier =>
              let verifier2 := V.write (V.write verifier encodedHeader) [46]
              .ok { encoder := ⟨some verifier2, []⟩, header := some header,
                    signature := signature }
        | _ => .error .formatError

/-- The deserializer's `Write::write`: forwards to the base64 encoder. -/
def DeserializeJwsWriter.write (wr : β → List Nat → β) (w : DeserializeJwsWriter β)
    (chunk : List Nat) : Except JwsError (DeserializeJwsWriter β) :=
  match encWrite wr w.encoder chunk with
  | .error e => .error e
  | .ok e2 => .ok { w with encoder := e2 }

/-- `DeserializeJwsWriter::finish`: bails with the already-finished error
on a second successful call; otherwise flushes the encoder and checks the
candidate signature, distinguishing a mismatch (`signatureInvalid`) from
a failing primitive (`cryptoError`). -/
def DeserializeJwsWriter.finish (V : Verify β) (w : DeserializeJwsWriter β) :
    Except JwsError (JwsHeader × DeserializeJwsWriter β) :=
  match w.header with
  | none => .error .alreadyFinished
  | some header =>
    match encFinish V.write w.encoder with
    | .error e => .error e
    | .ok (verifier, e2) =>
      match V.verify verifier w.signature with
      | none => .error .cryptoError
      | some true => .ok (header, { w with header := none, encoder := e2 })
      | some false => .error .signatureInvalid

/-- A sequence of `write` calls on the deserializer. -/
def DeserializeJwsWriter.writeAll (wr : β → List Nat → β) (w : DeserializeJwsWriter β)
    (chunks : List (List Nat)) : Except JwsError (DeserializeJwsWriter β) :=
  match chunks with
  | [] => .ok w
  | c :: cs =>
    match DeserializeJwsWriter.write wr w c with
    | .error e => .error e
    | .ok w2 => DeserializeJwsWriter.writeAll wr w2 cs

/-- One-shot `deserialize_selector`: construct, stream the payload,
finish. -/
def deserialize_selector (V : Verify β) (jws : List Nat) (payload : List Nat)
    (selector : JwsHeader → Option β) : Except JwsError JwsHeader :=
  match DeserializeJwsWriter.new V jws selector with
  | .error e => .error e
  | .ok w =>
    match DeserializeJwsWriter.write V.write w payload with
    | .error e => .error e
    | .ok w2 =>
      match DeserializeJwsWriter.finish V w2 with
      | .error e => .error e
      | .ok (h, _) => .ok h

/-- One-shot `deserialize` with a concrete verifier: the selector
unconditionally returns the supplied verifier. -/
def deserialize (V : Verify β) (jws : List Nat) (payload : List Nat)
    (verifier : β) : Except JwsError JwsHeader :=
  match DeserializeJwsWriter.new V jws (fun _ => some verifier) with
  | .error e => .error e
  | .ok w =>
    match DeserializeJwsWriter.write V.write w payload with
    | .error e => .error e
    | .ok w2 =>
      match DeserializeJwsWriter.finish V w2 with
      | .error e => .error e
      | .ok (h, _) => .ok h

/-- `serialize` with the payload supplied in arbitrary chunks: construct
the writer, issue one `write` per chunk, finish. -/
def serializeChunks (S : Sign α) (algorithm : List Nat) (header : JwsHeader)
    (chunks : List (List Nat)) (signer : α) : Except JwsError (List Nat) :=
  let w := SerializeJwsWriter.new S [] algorithm header signer
  match SerializeJwsWriter.writeAll S.write w chunks with
  | .error e => .error e
  | .ok w2 =>
    match SerializeJwsWriter.finish S w2 with
    | .error e => .error e
    | .ok (token, _) => .ok token

/-- `deserialize_selector` with the payload supplied in arbitrary chunks. -/
def deserializeChunks (V : Verify β) (jws : List Nat) (chunks : List (List Nat))
    (selector : JwsHeader → Option β) : Except JwsError JwsHeader :=
  match DeserializeJwsWriter.new V jws selector with
  | .error e => .error e
  | .ok w =>
    match DeserializeJwsWriter.writeAll V.write w chunks with
    | .error e => .error e
    | .ok w2 =>
      match DeserializeJwsWriter.finish V w2 with
      | .error e => .error e
      | .ok (h, _) => .ok h

theorem encWrite_sink_some (wr : α → List Nat → α) (a : α) (buf c : List Nat) :
    ∃ a2 buf2, encWrite wr ⟨some a, buf⟩ c = .ok ⟨some a2, buf2⟩ ∧ buf2.length < 3 := by
  unfold encWrite
  dsimp only
  split_ifs with hk
  · refine ⟨a, buf ++ c, rfl, ?_⟩
    omega
  · refine ⟨_, _, rfl, ?_⟩
    simp only [List.length_drop]
    omega

theorem encWrite_collapse (wr : α → List Nat → α)
    (hw : ∀ a c1 c2, wr (wr a c1) c2 = wr a (c1 ++ c2))
    (a : α) (buf c1 c2 : List Nat) (e1 : EncState α)
    (h1 : encWrite wr ⟨some a, buf⟩ c1 = .ok e1) :
    encWrite wr e1 c2 = encWrite wr ⟨some a, buf⟩ (c1 ++ c2) := by
  unfold encWrite at h1
  dsimp only at h1
  split_ifs at h1 with hk1
  · simp only [Except.ok.injEq] at h1
    subst h1
    unfold encWrite
    dsimp only
    rw [List.append_assoc]
  · simp only [Except.ok.injEq] at h1
    subst h1
    unfold encWrite
    dsimp only
    have hk1le : (buf ++ c1).length - (buf ++ c1).length % 3 ≤ (buf ++ c1).length := by
      omega
    have hk1mod : ((buf ++ c1).length - (buf ++ c1).length % 3) % 3 = 0 := by
      omega
    have hd2 : ((buf ++ c1).drop ((buf ++ c1).length - (buf ++ c1).length % 3) ++ c2) =
        (buf ++ (c1 ++ c2)).drop ((buf ++ c1).length - (buf ++ c1).length % 3) := by
      rw [← List.append_assoc]
      rw [List.drop_append_of_le_length hk1le]
    have hlen2 : ((buf ++ c1).drop ((buf ++ c1).length - (buf ++ c1).length % 3) ++
        c2).length = (buf ++ c1).length % 3 + c2.length := by
      simp only [List.length_append, List.length_drop]
      omega
    have hlenD : (buf ++ (c1 ++ c2)).length = (buf ++ c1).length + c2.length := by
      simp only [List.length_append]
      omega
    by_cases hk2 : ((buf ++ c1).length % 3 + c2.length) -
        ((buf ++ c1).length % 3 + c2.length) % 3 = 0
    · rw [if_pos (by rw [hlen2]; omega)]
      rw [if_neg (by rw [hlenD]; omega)]
      have hKeq : (buf ++ (c1 ++ c2)).length - (buf ++ (c1 ++ c2)).length % 3 =
          (buf ++ c1).length - (buf ++ c1).length % 3 := by
        rw [hlenD]
        omega
      rw [hKeq]
      rw [show (buf ++ (c1 ++ c2)) = ((buf ++ c1) ++ c2) from by rw [List.append_assoc]]
      rw [List.take_append_of_le_length hk1le, List.drop_append_of_le_length hk1le]
    · rw [if_neg (by rw [hlen2]; omega)]
      rw [if_neg (by rw [hlenD]; omega)]
      simp only [Except.ok.injEq, EncState.mk.injEq, Option.some.injEq]
      have hKsplit : (buf ++ (c1 ++ c2)).length - (buf ++ (c1 ++ c2)).length % 3 =
          ((buf ++ c1).length - (buf ++ c1).length % 3) +
          (((buf ++ c1).drop ((buf ++ c1).length - (buf ++ c1).length % 3) ++ c2).length -
            ((buf ++ c1).drop ((buf ++ c1).length - (buf ++ c1).length % 3) ++
              c2).length % 3) := by
        rw [hlen2, hlenD]
        omega
      constructor
      · rw [hw, hKsplit]
        rw [show (buf ++ (c1 ++ c2)) = ((buf ++ c1) ++ c2) from by rw [List.append_assoc]]
        rw [List.take_add]
        rw [List.take_append_of_le_length hk1le, List.drop_append_of_le_length hk1le]
        rw [b64encode_append _ _ (by
          rw [List.length_take]
          omega)]
      · rw [hKsplit]
        rw [show (buf ++ (c1 ++ c2)) = ((buf ++ c1) ++ c2) from by rw [List.append_assoc]]
        rw [← List.drop_drop]
        rw [List.drop_append_of_le_length hk1le]

theorem serWriteAll_flatten (wr : α → List Nat → α)
    (hw : ∀ a c1 c2, wr (wr a c1) c2 = wr a (c1 ++ c2)) :
    ∀ (chunks : List (List Nat)) (d : Option (List Nat)) (a : α) (buf : List Nat),
    buf.length < 3 →
    SerializeJwsWriter.writeAll wr ⟨d, ⟨some a, buf⟩⟩ chunks =
      SerializeJwsWriter.write wr ⟨d, ⟨some a, buf⟩⟩ chunks.flatten := by
  intro chunks
  induction chunks with
  | nil =>
    intro d a buf hb
    unfold SerializeJwsWriter.writeAll SerializeJwsWriter.write encWrite
    dsimp only [List.flatten_nil]
    rw [List.append_nil, if_pos (by omega)]
  | cons c cs ih =>
    intro d a buf hb
    obtain ⟨a2, buf2, he, hlt⟩ := encWrite_sink_some wr a buf c
    have hcol := encWrite_collapse wr hw a buf c cs.flatten _ he
    have hwc : SerializeJwsWriter.write wr ⟨d, ⟨some a, buf⟩⟩ c =
        .ok ⟨d, ⟨some a2, buf2⟩⟩ := by
      unfold SerializeJwsWriter.write
      dsimp only
      rw [he]
    calc SerializeJwsWriter.writeAll wr ⟨d, ⟨some a, buf⟩⟩ (c :: cs)
        = SerializeJwsWriter.writeAll wr ⟨d, ⟨some a2, buf2⟩⟩ cs := by
          rw [SerializeJwsWriter.writeAll.eq_def]
          dsimp only
          rw [hwc]
      _ = SerializeJwsWriter.write wr ⟨d, ⟨some a2, buf2⟩⟩ cs.flatten :=
          ih d a2 buf2 hlt
      _ = SerializeJwsWriter.write wr ⟨d, ⟨some a, buf⟩⟩ (c :: cs).flatten := by
          unfold SerializeJwsWriter.write
          dsimp only [List.flatten_cons]
          rw [hcol]

theorem desWriteAll_flatten (wr : β → List Nat → β)
    (hw : ∀ a c1 c2, wr (wr a c1) c2 = wr a (c1 ++ c2)) :
    ∀ (chunks : List (List Nat)) (h : Option JwsHeader) (sig : List Nat)
      (a : β) (buf : List Nat),
    buf.length < 3 →
    DeserializeJwsWriter.writeAll wr ⟨⟨some a, buf⟩, h, sig⟩ chunks =
      DeserializeJwsWriter.write wr ⟨⟨some a, buf⟩, h, sig⟩ chunks.flatten := by
  intro chunks
  induction chunks with
  | nil =>
    intro h sig a buf hb
    unfold DeserializeJwsWriter.writeAll DeserializeJwsWriter.write encWrite
    dsimp only [List.flatten_nil]
    rw [List.append_nil, if_pos (by omega)]
  | cons c cs ih =>
    intro h sig a buf hb
    obtain ⟨a2, buf2, he, hlt⟩ := encWrite_sink_some wr a buf c
    have hcol := encWrite_collapse wr hw a buf c cs.flatten _ he
    have hwc : DeserializeJwsWriter.write wr ⟨⟨some a, buf⟩, h, sig⟩ c =
        .ok ⟨⟨some a2, buf2⟩, h, sig⟩ := by
      unfold DeserializeJwsWriter.write
      dsimp only
      rw [he]
    calc DeserializeJwsWriter.writeAll wr ⟨⟨some a, buf⟩, h, sig⟩ (c :: cs)
        = DeserializeJwsWriter.writeAll wr ⟨⟨some a2, buf2⟩, h, sig⟩ cs := by
          rw [DeserializeJwsWriter.writeAll.eq_def]
          dsimp only
          rw [hwc]
      _ = DeserializeJwsWriter.write wr ⟨⟨some a2, buf2⟩, h, sig⟩ cs.flatten :=
          ih h sig a2 buf2 hlt
      _ = DeserializeJwsWriter.write wr ⟨⟨some a, buf⟩, h, sig⟩ (c :: cs).flatten := by
          unfold DeserializeJwsWriter.write
          dsimp only [List.flatten_cons]
          rw [hcol]

theorem enc_stream_from (wr : α → List Nat → α)
    (hw : ∀ a c1 c2, wr (wr a c1) c2 = wr a (c1 ++ c2))
    (s0 : α) (pre c : List Nat) :
    ∃ e1, encWrite wr ⟨some (wr s0 pre), []⟩ c = .ok e1 ∧
      encFinish wr e1 = .ok (wr s0 (pre ++ b64encode c), ⟨none, []⟩) := by
  unfold encWrite
  dsimp only
  simp only [List.nil_append]
  split_ifs with hk
  · refine ⟨⟨some (wr s0 pre), c⟩, rfl, ?_⟩
    unfold encFinish
    dsimp only
    cases c with
    | nil => simp [b64encode_nil]
    | cons b bs =>
      rw [if_neg (by simp)]
      rw [hw]
  · refine ⟨_, rfl, ?_⟩
    unfold encFinish
    dsimp only
    by_cases hdrop : (c.drop (c.length - c.length % 3)).isEmpty = true
    · rw [if_pos hdrop]
      have hcall : c.take (c.length - c.length % 3) = c := by
        have : c.length % 3 = 0 := by
          simp only [List.isEmpty_iff, List.drop_eq_nil_iff] at hdrop
          omega
        rw [this, Nat.sub_zero, List.take_length]
      rw [hcall, hw]
    · rw [if_neg hdrop]
      rw [hw, hw]
      rw [← b64encode_append _ _ (by
        rw [List.length_take]
        omega)]
      rw [List.take_append_drop]

/-- Closed-form run of the one-shot serializer (for a signer-write that is
a monoid action): the signature is requested from the signer state fed
exactly `encoded_header ++ "." ++ b64(payload)`, and the token is
`encoded_header ++ ".." ++ b64(signature)`. -/
theorem serialize_run (S : Sign α)
    (hw : ∀ a c1 c2, S.write (S.write a c1) c2 = S.write a (c1 ++ c2))
    (A : List Nat) (H : JwsHeader) (P : List Nat) (signer : α) :
    serialize S A H P signer =
      match S.getSign (S.write signer
          ((b64encode (serializeJson (Json.obj (insertKey algKey (Json.str A) H)))
            ++ [46]) ++ b64encode P)) with
      | none => Except.error JwsError.cryptoError
      | some sig =>
        Except.ok ((b64encode (serializeJson (Json.obj (insertKey algKey (Json.str A) H)))
          ++ [46, 46]) ++ b64encode sig) := by
  unfold serialize SerializeJwsWriter.new
  dsimp only
  rw [hw signer _ [46]]
  obtain ⟨e1, he1, hfin⟩ := enc_stream_from S.write hw signer
    (b64encode (serializeJson (Json.obj (insertKey algKey (Json.str A) H))) ++ [46]) P
  unfold SerializeJwsWriter.write
  dsimp only
  rw [he1]
  dsimp only
  unfold SerializeJwsWriter.finish
  dsimp only
  rw [hfin]
  dsimp only
  cases S.getSign (S.write signer
      ((b64encode (serializeJson (Json.obj (insertKey algKey (Json.str A) H)))
        ++ [46]) ++ b64encode P)) with
  | none => rfl
  | some sig =>
    dsimp only
    rw [List.nil_append, List.append_assoc _ [46] [46]]
    rfl

/-- Splitting a well-formed detached token on `'.'` yields exactly the
encoded header, an empty middle field and the encoded signature. -/
theorem splitDot_token (hdr sig : List Nat) (hh : ∀ b ∈ hdr, b < 256)
    (hs : ∀ b ∈ sig, b < 256) :
    splitDot (b64encode hdr ++ [46, 46] ++ b64encode sig) =
      [b64encode hdr, [], b64encode sig] := by
  have h1 : b64encode hdr ++ [46, 46] ++ b64encode sig =
      b64encode hdr ++ 46 :: (46 :: b64encode sig) := by
    rw [List.append_assoc]
    rfl
  rw [h1, splitDot_append_dot _ _ (b64encode_ne_dot hdr hh)]
  have h2 : (46 : Nat) :: b64encode sig = [] ++ 46 :: b64encode sig := rfl
  rw [h2, splitDot_append_dot _ _ (by intro c hc; simp at hc)]
  rw [splitDot_no_dot _ (b64encode_ne_dot sig hs)]

/-- Closed-form run of `DeserializeJwsWriter::new` on a well-formed
detached token: the header round-trips, the signature is decoded, the
selector is consulted on the parsed header and the fresh verifier is fed
exactly `encoded_header ++ "."`. -/
theorem new_run (V : Verify β) (H : JwsHeader) (hwf : jsonWF (Json.obj H) = true)
    (sig : List Nat) (hs : ∀ b ∈ sig, b < 256) (selector : JwsHeader → Option β) :
    DeserializeJwsWriter.new V
        (b64encode (serializeJson (Json.obj H)) ++ [46, 46] ++ b64encode sig) selector =
      match selector H with
      | none => Except.error JwsError.verifierNotFound
      | some verifier =>
        Except.ok ⟨⟨some (V.write (V.write verifier
          (b64encode (serializeJson (Json.obj H)))) [46]), []⟩, some H, sig⟩ := by
  unfold DeserializeJwsWriter.new
  rw [splitDot_token _ _ (serializeJson_lt _ hwf) hs]
  dsimp only
  rw [b64decode_b64encode _ (serializeJson_lt _ hwf)]
  dsimp only
  rw [jsonParseObject_round H hwf]
  dsimp only
  rw [b64decode_b64encode _ hs]

/-- Closed-form run of the one-shot `deserialize_selector` (for a
verifier-write that is a monoid action) on a well-formed detached token:
the candidate signature is checked against the verifier state fed exactly
`encoded_header ++ "." ++ b64(payload)`. -/
theorem deserialize_selector_run (V : Verify β)
    (hw : ∀ a c1 c2, V.write (V.write a c1) c2 = V.write a (c1 ++ c2))
    (H : JwsHeader) (hwf : jsonWF (Json.obj H) = true)
    (sig : List Nat) (hs : ∀ b ∈ sig, b < 256)
    (P : List Nat) (selector : JwsHeader → Option β) :
    deserialize_selector V
        (b64encode (serializeJson (Json.obj H)) ++ [46, 46] ++ b64encode sig) P selector =
      match selector H with
      | none => Except.error JwsError.verifierNotFound
      | some verifier =>
        match V.verify (V.write verifier
            ((b64encode (serializeJson (Json.obj H)) ++ [46]) ++ b64encode P)) sig with
        | none => Except.error JwsError.cryptoError
        | some true => Except.ok H
        | some false => Except.error JwsError.signatureInvalid := by
  unfold deserialize_selector
  rw [new_run V H hwf sig hs selector]
  cases hsel : selector H with
  | none => rfl
  | some verifier =>
    dsimp only
    rw [hw verifier _ [46]]
    obtain ⟨e1, he1, hfin⟩ := enc_stream_from V.write hw verifier
      (b64encode (serializeJson (Json.obj H)) ++ [46]) P
    unfold DeserializeJwsWriter.write
    dsimp only
    rw [he1]
    dsimp only
    unfold DeserializeJwsWriter.finish
    dsimp only
    rw [hfin]
    dsimp only
    cases V.verify (V.write verifier
        (b64encode (serializeJson (Json.obj H)) ++ [46] ++ b64encode P)) sig with
    | none => rfl
    | some b => cases b <;> rfl

/-- Inserting a well-formed key/value pair into a well-formed header
object keeps it a well-formed JSON object. -/
theorem jsonWF_obj_insertKey (k : List Nat) (v : Json) (H : JwsHeader)
    (hk : wfString k = true) (hv : jsonWF v = true)
    (hwf : jsonWF (Json.obj H) = true) : jsonWF (Json.obj (insertKey k v H)) = true := by
  rw [jsonWF_obj] at hwf ⊢
  rw [Bool.and_eq_true] at hwf ⊢
  exact ⟨sortedKeys_insertKey k v H hwf.1, jsonWFObj_insertKey k v H hk hv hwf.2⟩

/-- A signing session that records the exact bytes written to it and
returns the transcript itself as the signature. -/
def traceSign : Sign (List Nat) :=
  ⟨fun t c => t ++ c, fun t => some t⟩

/-- A verification session that records the bytes written and accepts
exactly a candidate signature equal to the recorded transcript. -/
def traceVerify : Verify (List Nat) :=
  ⟨fun t c => t ++ c, fun t sig => some (decide (t = sig))⟩

/-- A successful `DeserializeJwsWriter::new` always hands back a writer
with an armed verifier, an empty base64 buffer and a parsed header. -/
theorem new_shape (V : Verify β) (jws : List Nat)
    (sel : JwsHeader → Option β) (w : DeserializeJwsWriter β)
    (hn : DeserializeJwsWriter.new V jws sel = .ok w) :
    ∃ a h sg, w = ⟨⟨some a, []⟩, some h, sg⟩ := by
  unfold DeserializeJwsWriter.new at hn
  repeat' split at hn
  any_goals cases hn
  exact ⟨_, _, _, rfl⟩

/-- The fixed-verifier `deserialize` is the selector variant with the
constant selector. -/
theorem deserialize_eq_selector (V : Verify β) (jws P : List Nat) (v : β) :
    deserialize V jws P v = deserialize_selector V jws P (fun _ => some v) := rfl

/-- `EncoderWriter::finish` always hands back a disarmed encoder. -/
theorem encFinish_shape (wr : α → List Nat → α) (e : EncState α) (a : α)
    (e2 : EncState α) (h : encFinish wr e = .ok (a, e2)) : e2 = ⟨none, []⟩ := by
  unfold encFinish at h
  split at h
  · cases h
  · simp only [Except.ok.injEq, Prod.mk.injEq] at h
    exact h.2.symm

/-- A successful serializer finish leaves the taken delegate and the
disarmed encoder. -/
theorem serfinish_shape (S : Sign α) (w : SerializeJwsWriter α) (out : List Nat)
    (w2 : SerializeJwsWriter α)
    (hf : SerializeJwsWriter.finish S w = .ok (out, w2)) :
    w2 = ⟨none, ⟨none, []⟩⟩ := by
  unfold SerializeJwsWriter.finish at hf
  cases hdel : w.delegate with
  | none => rw [hdel] at hf; cases hf
  | some out0 =>
    rw [hdel] at hf
    dsimp only at hf
    cases henc : encFinish S.write w.encoder with
    | error e => rw [henc] at hf; cases hf
    | ok pr =>
      obtain ⟨signer, e2⟩ := pr
      rw [henc] at hf
      dsimp only at hf
      cases hsig : S.getSign signer with
      | none => rw [hsig] at hf; cases hf
      | some sig =>
        rw [hsig] at hf
        dsimp only at hf
        simp only [Except.ok.injEq, Prod.mk.injEq] at hf
        rw [← hf.2, encFinish_shape _ _ _ _ henc]

/-- A successful deserializer finish clears the header and leaves the
disarmed encoder, keeping only the stored signature. -/
theorem desfinish_shape (V : Verify β) (d : DeserializeJwsWriter β)
    (h : JwsHeader) (d2 : DeserializeJwsWriter β)
    (hd : DeserializeJwsWriter.finish V d = .ok (h, d2)) :
    ∃ sg, d2 = ⟨⟨none, []⟩, none, sg⟩ := by
  unfold DeserializeJwsWriter.finish at hd
  cases hh : d.header with
  | none => rw [hh] at hd; cases hd
  | some hdr =>
    rw [hh] at hd
    dsimp only at hd
    cases henc : encFinish V.write d.encoder with
    | error e => rw [henc] at hd; cases hd
    | ok pr =>
      obtain ⟨verifier, e2⟩ := pr
      rw [henc] at hd
      dsimp only at hd
      cases hver : V.verify verifier d.signature with
      | none => rw [hver] at hd; cases hd
      | some b =>
        rw [hver] at hd
        cases b with
        | false => cases hd
        | true =>
          dsimp only at hd
          simp only [Except.ok.injEq, Prod.mk.injEq] at hd
          refine ⟨d.signature, ?_⟩
          rw [← hd.2, encFinish_shape _ _ _ _ henc]

/-- C2: `serialize` with header `{"custom":"custom_value"}`, algorithm
`"test_algorithm"`, payload `[0,1,2,3,4,5,6]` and a signer whose signature
is exactly the bytes written to it reproduces the documented ASCII
token. -/
theorem C2_concrete_vector :
    serialize traceSign
      [116, 101, 115, 116, 95, 97, 108, 103, 111, 114, 105, 116, 104, 109]
      [([99, 117, 115, 116, 111, 109],
        Json.str [99, 117, 115, 116, 111, 109, 95, 118, 97, 108, 117, 101])]
      [0, 1, 2, 3, 4, 5, 6] [] =
    Except.ok [101, 121, 74, 104, 98, 71, 99, 105, 79, 105, 74, 48, 90, 88, 78, 48,
      88, 50, 70, 115, 90, 50, 57, 121, 97, 88, 82, 111, 98, 83, 73, 115, 73, 109,
      78, 49, 99, 51, 82, 118, 98, 83, 73, 54, 73, 109, 78, 49, 99, 51, 82, 118,
      98, 86, 57, 50, 89, 87, 120, 49, 90, 83, 74, 57, 46, 46, 90, 88, 108, 75,
      97, 71, 74, 72, 89, 50, 108, 80, 97, 85, 111, 119, 87, 108, 104, 79, 77, 70,
      103, 121, 82, 110, 78, 97, 77, 106, 108, 53, 89, 86, 104, 83, 98, 50, 74,
      84, 83, 88, 78, 74, 98, 85, 52, 120, 89, 122, 78, 83, 100, 109, 74, 84, 83,
      84, 90, 74, 98, 85, 52, 120, 89, 122, 78, 83, 100, 109, 74, 87, 79, 84, 74,
      90, 86, 51, 103, 120, 87, 108, 78, 75, 79, 83, 53, 66, 81, 85, 86, 68, 81,
      88, 100, 82, 82, 107, 74, 110] := by
  rfl

/-- C4 counterexample: the token `e30..AA.AA` has four dot-separated
fields, yet `DeserializeJwsWriter::new` accepts it — the claimed
"exactly 3 fields" rejection does not happen. -/
theorem C4_counterexample :
    (splitDot [101, 51, 48, 46, 46, 65, 65, 46, 65, 65]).length = 4 ∧
    DeserializeJwsWriter.new traceVerify [101, 51, 48, 46, 46, 65, 65, 46, 65, 65]
        (fun _ => some []) =
      Except.ok ⟨⟨some [101, 51, 48, 46], []⟩, some [], [0]⟩ := by
  exact ⟨rfl, rfl⟩

/-- C4 (amended): a token with fewer than 3 dot-separated fields is
rejected at construction time with a token-format error, before any
verification is attempted; fields beyond the third are ignored. -/
theorem C4_too_few_fields (V : Verify β) (jws : List Nat)
    (selector : JwsHeader → Option β)
    (hlen : (splitDot jws).length < 3) :
    ∃ e, DeserializeJwsWriter.new V jws selector = Except.error e ∧
      e.isFormat = true := by
  unfold DeserializeJwsWriter.new
  cases hsp : splitDot jws with
  | nil => exact ⟨.formatError, rfl, rfl⟩
  | cons f1 rest =>
    dsimp only
    cases b64decode f1 with
    | none => exact ⟨.headerFormatError, rfl, rfl⟩
    | some hb =>
      dsimp only
      cases jsonParseObject hb with
      | none => exact ⟨.headerFormatError, rfl, rfl⟩
      | some hdr =>
        dsimp only
        cases rest with
        | nil => exact ⟨.formatError, rfl, rfl⟩
        | cons f2 rest2 =>
          cases rest2 with
          | nil => exact ⟨.formatError, rfl, rfl⟩
          | cons f3 rest3 =>
            rw [hsp] at hlen
            simp at hlen
            omega

/-- C4 witness: the one-field token `a` is rejected with a format
error. -/
theorem C4_too_few_fields_witness :
    ∃ e, DeserializeJwsWriter.new traceVerify [97] (fun _ => some []) =
      Except.error e ∧ e.isFormat = true :=
  C4_too_few_fields traceVerify [97] (fun _ => some []) (by decide)

/-- C5: when the deserializer's finish reaches the verification primitive
and it runs successfully but reports a mismatch, finish fails with
`SignatureInvalid`, which is distinct from `CryptoError`. -/
theorem C5_signature_invalid (V : Verify β) (a : β) (buf sig : List Nat)
    (h : JwsHeader)
    (hv : V.verify (if buf.isEmpty then a else V.write a (b64encode buf)) sig =
      some false) :
    DeserializeJwsWriter.finish V ⟨⟨some a, buf⟩, some h, sig⟩ =
      Except.error JwsError.signatureInvalid ∧
    JwsError.signatureInvalid ≠ JwsError.cryptoError := by
  constructor
  · unfold DeserializeJwsWriter.finish encFinish
    dsimp only
    rw [hv]
  · decide

/-- C5 witness: a transcript verifier whose recorded bytes differ from
the candidate signature makes finish fail with `SignatureInvalid`. -/
theorem C5_signature_invalid_witness :
    DeserializeJwsWriter.finish traceVerify ⟨⟨some [1], []⟩, some [], []⟩ =
      Except.error JwsError.signatureInvalid ∧
    JwsError.signatureInvalid ≠ JwsError.cryptoError :=
  C5_signature_invalid traceVerify [1] [] [] [] (by decide)

/-- C7 counterexample: after a successful serializer finish, a `write`
fails with the panic of the consumed base64 encoder, not with
`AlreadyFinished` as claimed. -/
theorem C7_counterexample :
    SerializeJwsWriter.finish traceSign
        (⟨some [], ⟨some [], []⟩⟩ : SerializeJwsWriter (List Nat)) =
      Except.ok ([], ⟨none, ⟨none, []⟩⟩) ∧
    SerializeJwsWriter.write traceSign.write
        (⟨none, ⟨none, []⟩⟩ : SerializeJwsWriter (List Nat)) [0] =
      Except.error JwsError.panicked ∧
    JwsError.panicked ≠ JwsError.alreadyFinished := by
  exact ⟨rfl, rfl, by decide⟩

/-- C7 (amended): once `finish` has returned successfully on either
pipeline, a second `finish` fails with `AlreadyFinished` without
recomputing anything, while a `write` after `finish` hits the consumed
base64 encoder (a panic in the Rust code, not `AlreadyFinished`). -/
theorem C7_after_finish (S : Sign α) (V : Verify β)
    (w : SerializeJwsWriter α) (out : List Nat) (w2 : SerializeJwsWriter α)
    (hf : SerializeJwsWriter.finish S w = .ok (out, w2))
    (d : DeserializeJwsWriter β) (h : JwsHeader) (d2 : DeserializeJwsWriter β)
    (hd : DeserializeJwsWriter.finish V d = .ok (h, d2)) (c : List Nat) :
    SerializeJwsWriter.finish S w2 = Except.error JwsError.alreadyFinished ∧
    SerializeJwsWriter.write S.write w2 c = Except.error JwsError.panicked ∧
    DeserializeJwsWriter.finish V d2 = Except.error JwsError.alreadyFinished ∧
    DeserializeJwsWriter.write V.write d2 c = Except.error JwsError.panicked := by
  have hw2 : w2 = ⟨none, ⟨none, []⟩⟩ := serfinish_shape S w out w2 hf
  obtain ⟨sg, hd2⟩ : ∃ sg, d2 = ⟨⟨none, []⟩, none, sg⟩ :=
    desfinish_shape V d h d2 hd
  subst hw2
  subst hd2
  exact ⟨rfl, rfl, rfl, rfl⟩

/-- C7 witness: concrete writers right after a successful finish reject a
second finish with `AlreadyFinished` and a write with the encoder
panic. -/
theorem C7_after_finish_witness :
    SerializeJwsWriter.finish traceSign
        (⟨none, ⟨none, []⟩⟩ : SerializeJwsWriter (List Nat)) =
      Except.error JwsError.alreadyFinished ∧
    SerializeJwsWriter.write traceSign.write
        (⟨none, ⟨none, []⟩⟩ : SerializeJwsWriter (List Nat)) [7] =
      Except.error JwsError.panicked ∧
    DeserializeJwsWriter.finish traceVerify
        (⟨⟨none, []⟩, none, []⟩ : DeserializeJwsWriter (List Nat)) =
      Except.error JwsError.alreadyFinished ∧
    DeserializeJwsWriter.write traceVerify.write
        (⟨⟨none, []⟩, none, []⟩ : DeserializeJwsWriter (List Nat)) [7] =
      Except.error JwsError.panicked :=
  C7_after_finish traceSign traceVerify
    ⟨some [], ⟨some [], []⟩⟩ [] ⟨none, ⟨none, []⟩⟩ rfl
    ⟨⟨some [], []⟩, some [], []⟩ [] ⟨⟨none, []⟩, none, []⟩ rfl [7]

/-- C8: `DeserializeJwsWriter::new` never inspects the middle field — two
tokens splitting to the same first field and the same fields after the
second are processed identically whatever the middle field holds. -/
theorem C8_middle_field_ignored (V : Verify β) (jws1 jws2 : List Nat)
    (f1 m1 m2 : List Nat) (rest : List (List Nat))
    (selector : JwsHeader → Option β)
    (h1 : splitDot jws1 = f1 :: m1 :: rest)
    (h2 : splitDot jws2 = f1 :: m2 :: rest) :
    DeserializeJwsWriter.new V jws1 selector =
      DeserializeJwsWriter.new V jws2 selector := by
  unfold DeserializeJwsWriter.new
  rw [h1, h2]
  cases rest with
  | nil => rfl
  | cons p3 t => rfl

/-- C8 witness: the tokens `e30.X.AA` (non-empty middle field) and
`e30..AA` (empty middle field) are processed identically. -/
theorem C8_middle_field_ignored_witness :
    DeserializeJwsWriter.new traceVerify [101, 51, 48, 46, 88, 46, 65, 65]
        (fun _ => some []) =
      DeserializeJwsWriter.new traceVerify [101, 51, 48, 46, 46, 65, 65]
        (fun _ => some []) :=
  C8_middle_field_ignored traceVerify _ _ [101, 51, 48] [88] [] [[65, 65]]
    (fun _ => some []) rfl rfl

/-- C9: once the token is split, the header decoded and parsed and the
signature field decoded, the selector is consulted on the parsed header;
a `none` answer fails construction with `VerifierNotFound`. -/
theorem C9_selector_not_found (V : Verify β) (jws f1 mid p3 : List Nat)
    (rest : List (List Nat)) (hdrBytes : List Nat) (header : JwsHeader)
    (sig : List Nat) (selector : JwsHeader → Option β)
    (hsp : splitDot jws = f1 :: mid :: p3 :: rest)
    (hdec : b64decode f1 = some hdrBytes)
    (hpar : jsonParseObject hdrBytes = some header)
    (hsig : b64decode p3 = some sig)
    (hsel : selector header = none) :
    DeserializeJwsWriter.new V jws selector =
      Except.error JwsError.verifierNotFound := by
  unfold DeserializeJwsWriter.new
  rw [hsp]
  dsimp only
  rw [hdec]
  dsimp only
  rw [hpar]
  dsimp only
  rw [hsig]
  dsimp only
  rw [hsel]

/-- C9 witness: on the token `e30..AA` a selector that matches no header
makes construction fail with `VerifierNotFound`. -/
theorem C9_selector_not_found_witness :
    DeserializeJwsWriter.new traceVerify [101, 51, 48, 46, 46, 65, 65]
        (fun _ => none) =
      Except.error JwsError.verifierNotFound :=
  C9_selector_not_found traceVerify [101, 51, 48, 46, 46, 65, 65]
    [101, 51, 48] [] [65, 65] [] [123, 125] [] [0] (fun _ => none)
    rfl rfl rfl rfl rfl

/-- C1: for every valid JSON header H, algorithm A, payload P and
matching signer/verifier pair, deserializing the token produced by
`serialize` against the same payload succeeds and returns the header H
extended with `alg = A` — which carries every key of H and maps `alg`
to A. -/
theorem C1_roundtrip (S : Sign α) (V : Verify β) (A : List Nat) (H : JwsHeader)
    (P : List Nat) (signer : α) (v0 : β)
    (hwS : ∀ a c1 c2, S.write (S.write a c1) c2 = S.write a (c1 ++ c2))
    (hwV : ∀ a c1 c2, V.write (V.write a c1) c2 = V.write a (c1 ++ c2))
    (hwf : jsonWF (Json.obj H) = true)
    (hA : wfString A = true)
    (hP : ∀ b ∈ P, b < 256)
    (hmatch : ∀ data, (∀ b ∈ data, b < 256) →
      ∃ sig, S.getSign (S.write signer data) = some sig ∧ (∀ b ∈ sig, b < 256) ∧
        V.verify (V.write v0 data) sig = some true) :
    (serialize S A H P signer).bind (fun tok => deserialize V tok P v0) =
      Except.ok (insertKey algKey (Json.str A) H) ∧
    (∀ k, (∃ w, (k, w) ∈ H) → ∃ w, (k, w) ∈ insertKey algKey (Json.str A) H) ∧
    lookupKey algKey (insertKey algKey (Json.str A) H) = some (Json.str A) := by
  have hwf' : jsonWF (Json.obj (insertKey algKey (Json.str A) H)) = true :=
    jsonWF_obj_insertKey algKey (Json.str A) H (by decide)
      (show jsonWF (Json.str A) = true from hA) hwf
  refine ⟨?_, insertKey_keys_superset _ _ _, lookupKey_insertKey _ _ _⟩
  have hdata : ∀ b ∈ (b64encode (serializeJson
      (Json.obj (insertKey algKey (Json.str A) H))) ++ [46]) ++ b64encode P,
      b < 256 := by
    intro b hb
    rcases List.mem_append.mp hb with hb | hb
    · rcases List.mem_append.mp hb with hb | hb
      · exact b64encode_lt _ (serializeJson_lt _ hwf') b hb
      · simp at hb
        omega
    · exact b64encode_lt _ hP b hb
  obtain ⟨sig, hgs, hslt, hver⟩ := hmatch _ hdata
  rw [serialize_run S hwS A H P signer, hgs]
  dsimp only [Except.bind]
  rw [deserialize_eq_selector]
  rw [deserialize_selector_run V hwV _ hwf' sig hslt P _]
  dsimp only
  rw [hver]

/-- C1 witness: the round-trip instantiated with the transcript signer
and the transcript-equality verifier on a small concrete input. -/
theorem C1_roundtrip_witness :
    (serialize traceSign [97] [] [] []).bind
        (fun tok => deserialize traceVerify tok [] []) =
      Except.ok (insertKey algKey (Json.str [97]) []) ∧
    (∀ k, (∃ w, (k, w) ∈ ([] : JwsHeader)) →
      ∃ w, (k, w) ∈ insertKey algKey (Json.str [97]) []) ∧
    lookupKey algKey (insertKey algKey (Json.str [97]) []) =
      some (Json.str [97]) :=
  C1_roundtrip traceSign traceVerify [97] [] [] [] []
    (fun a c1 c2 => List.append_assoc a c1 c2)
    (fun a c1 c2 => List.append_assoc a c1 c2)
    (by decide) (by decide) (by simp)
    (fun data hd => ⟨data, rfl, hd, by simp [traceVerify]⟩)

/-- C3: for every complete run of either pipeline the bytes written to
the crypto session before its finalize/check call are exactly the
base64url-encoded header, one dot and the base64url-encoded payload.
The serializer requests the signature from the signer state fed
precisely `encoded_header ++ "." ++ b64(payload)`; the deserializer, on
any token whose construction succeeds, checks the candidate signature
against the verifier state fed precisely the token's literal first field
`f1`, one dot and `b64(payload)` — and that literal field is exactly the
base64url-no-pad encoding of the header JSON bytes it decoded to. -/
theorem C3_crypto_input (S : Sign α) (V : Verify β)
    (hwS : ∀ a c1 c2, S.write (S.write a c1) c2 = S.write a (c1 ++ c2))
    (hwV : ∀ a c1 c2, V.write (V.write a c1) c2 = V.write a (c1 ++ c2))
    (A : List Nat) (H : JwsHeader) (P : List Nat) (signer : α)
    (jws f1 mid p3 : List Nat) (rest : List (List Nat))
    (hdrBytes : List Nat) (header : JwsHeader) (sig : List Nat)
    (selector : JwsHeader → Option β) (verifier : β)
    (hsp : splitDot jws = f1 :: mid :: p3 :: rest)
    (hdec : b64decode f1 = some hdrBytes)
    (hpar : jsonParseObject hdrBytes = some header)
    (hsig : b64decode p3 = some sig)
    (hsel : selector header = some verifier) :
    (serialize S A H P signer =
      match S.getSign (S.write signer
          ((b64encode (serializeJson (Json.obj (insertKey algKey (Json.str A) H)))
            ++ [46]) ++ b64encode P)) with
      | none => Except.error JwsError.cryptoError
      | some s =>
        Except.ok ((b64encode (serializeJson
          (Json.obj (insertKey algKey (Json.str A) H))) ++ [46, 46]) ++
          b64encode s)) ∧
    f1 = b64encode hdrBytes ∧
    (deserialize_selector V jws P selector =
      match V.verify (V.write verifier ((f1 ++ [46]) ++ b64encode P)) sig with
      | none => Except.error JwsError.cryptoError
      | some true => Except.ok header
      | some false => Except.error JwsError.signatureInvalid) := by
  refine ⟨serialize_run S hwS A H P signer,
    ((b64encode_b64decode f1 hdrBytes hdec).1).symm, ?_⟩
  unfold deserialize_selector DeserializeJwsWriter.new
  rw [hsp]
  dsimp only
  rw [hdec]
  dsimp only
  rw [hpar]
  dsimp only
  rw [hsig]
  dsimp only
  rw [hsel]
  dsimp only
  rw [hwV verifier f1 [46]]
  obtain ⟨e1, he1, hfin⟩ := enc_stream_from V.write hwV verifier (f1 ++ [46]) P
  unfold DeserializeJwsWriter.write
  dsimp only
  rw [he1]
  dsimp only
  unfold DeserializeJwsWriter.finish
  dsimp only
  rw [hfin]
  dsimp only
  cases V.verify (V.write verifier (f1 ++ [46] ++ b64encode P)) sig with
  | none => rfl
  | some b => cases b <;> rfl

/-- C3 witness: the crypto-input characterisation instantiated with the
transcript signer and verifier; the deserializer side runs on the token
`eyB9..AA.AA`, whose header field is a non-canonical JSON spelling
(`"{ }"`) and which carries a fourth dot-separated field. -/
theorem C3_crypto_input_witness :
    (serialize traceSign [97] [] [0] [] =
      match traceSign.getSign (traceSign.write []
          ((b64encode (serializeJson (Json.obj (insertKey algKey (Json.str [97]) [])))
            ++ [46]) ++ b64encode [0])) with
      | none => Except.error JwsError.cryptoError
      | some s =>
        Except.ok ((b64encode (serializeJson
          (Json.obj (insertKey algKey (Json.str [97]) []))) ++ [46, 46]) ++
          b64encode s)) ∧
    [101, 121, 66, 57] = b64encode [123, 32, 125] ∧
    (deserialize_selector traceVerify
        [101, 121, 66, 57, 46, 46, 65, 65, 46, 65, 65] [0] (fun _ => some []) =
      match traceVerify.verify (traceVerify.write []
          (([101, 121, 66, 57] ++ [46]) ++ b64encode [0])) [0] with
      | none => Except.error JwsError.cryptoError
      | some true => Except.ok ([] : JwsHeader)
      | some false => Except.error JwsError.signatureInvalid) :=
  C3_crypto_input traceSign traceVerify
    (fun a c1 c2 => List.append_assoc a c1 c2)
    (fun a c1 c2 => List.append_assoc a c1 c2)
    [97] [] [0] []
    [101, 121, 66, 57, 46, 46, 65, 65, 46, 65, 65] [101, 121, 66, 57] [] [65, 65]
    [[65, 65]] [123, 32, 125] [] [0] (fun _ => some []) []
    rfl rfl rfl rfl rfl

/-- C6: writing the payload in any sequence of chunks and finishing gives
the same result as a single write of the concatenated payload, on both
pipelines. -/
theorem C6_chunking_invariance (S : Sign α) (V : Verify β)
    (hwS : ∀ a c1 c2, S.write (S.write a c1) c2 = S.write a (c1 ++ c2))
    (hwV : ∀ a c1 c2, V.write (V.write a c1) c2 = V.write a (c1 ++ c2))
    (A : List Nat) (H : JwsHeader) (chunks : List (List Nat)) (signer : α)
    (jws : List Nat) (selector : JwsHeader → Option β) :
    serializeChunks S A H chunks signer =
      serialize S A H chunks.flatten signer ∧
    deserializeChunks V jws chunks selector =
      deserialize_selector V jws chunks.flatten selector := by
  constructor
  · unfold serializeChunks serialize SerializeJwsWriter.new
    dsimp only
    rw [serWriteAll_flatten S.write hwS chunks _ _ [] (by decide)]
  · unfold deserializeChunks deserialize_selector
    cases hn : DeserializeJwsWriter.new V jws selector with
    | error e => rfl
    | ok w =>
      dsimp only
      obtain ⟨a, h, sg, rfl⟩ := new_shape V jws selector w hn
      rw [desWriteAll_flatten V.write hwV chunks (some h) sg a []
        (by decide)]

/-- C6 witness: chunked and one-shot runs agree on a concrete payload
split. -/
theorem C6_chunking_invariance_witness :
    serializeChunks traceSign [97] [] [[0], [1, 2]] [] =
      serialize traceSign [97] [] [[0], [1, 2]].flatten [] ∧
    deserializeChunks traceVerify [101, 51, 48, 46, 46, 65, 65] [[0], [1, 2]]
        (fun _ => some []) =
      deserialize_selector traceVerify [101, 51, 48, 46, 46, 65, 65]
        [[0], [1, 2]].flatten (fun _ => some []) :=
  C6_chunking_invariance traceSign traceVerify
    (fun a c1 c2 => List.append_assoc a c1 c2)
    (fun a c1 c2 => List.append_assoc a c1 c2)
    [97] [] [[0], [1, 2]] [] [101, 51, 48, 46, 46, 65, 65] (fun _ => some [])

/-- C10: the fixed-verifier `deserialize` can never fail with
`VerifierNotFound`: every construction-stage failure of its constant
selector is a token-format error. -/
theorem C10_no_verifier_not_found (V : Verify β) (jws P : List Nat) (v : β) :
    (∀ e, DeserializeJwsWriter.new V jws (fun _ => some v) = Except.error e →
      e.isFormat = true) ∧
    deserialize V jws P v ≠ Except.error JwsError.verifierNotFound := by
  have hfmt : ∀ e, DeserializeJwsWriter.new V jws (fun _ => some v) =
      Except.error e → e.isFormat = true := by
    intro e he
    unfold DeserializeJwsWriter.new at he
    cases hsp : splitDot jws with
    | nil =>
      rw [hsp] at he
      injection he with he
      subst he
      rfl
    | cons f1 rest =>
      rw [hsp] at he
      dsimp only at he
      cases hdec : b64decode f1 with
      | none =>
        rw [hdec] at he
        injection he with he
        subst he
        rfl
      | some hb =>
        rw [hdec] at he
        dsimp only at he
        cases hpar : jsonParseObject hb with
        | none =>
          rw [hpar] at he
          injection he with he
          subst he
          rfl
        | some hdr =>
          rw [hpar] at he
          dsimp only at he
          cases rest with
          | nil =>
            injection he with he
            subst he
            rfl
          | cons f2 rest2 =>
            cases rest2 with
            | nil =>
              injection he with he
              subst he
              rfl
            | cons f3 rest3 =>
              dsimp only at he
              cases hzd : b64decode f3 with
              | none =>
                rw [hzd] at he
                injection he with he
                subst he
                rfl
              | some sg =>
                rw [hzd] at he
                dsimp only at he
                cases he
  refine ⟨hfmt, ?_⟩
  intro hcontra
  unfold deserialize at hcontra
  cases hn : DeserializeJwsWriter.new V jws (fun _ => some v) with
  | error e =>
    rw [hn] at hcontra
    dsimp only at hcontra
    injection hcontra with hcontra
    have hIsF := hfmt e hn
    rw [hcontra] at hIsF
    cases hIsF
  | ok w =>
    rw [hn] at hcontra
    dsimp only at hcontra
    obtain ⟨a, hh, sg, rfl⟩ := new_shape V jws _ w hn
    obtain ⟨a2, buf2, he, hlt⟩ := encWrite_sink_some V.write a [] P
    unfold DeserializeJwsWriter.write at hcontra
    dsimp only at hcontra
    rw [he] at hcontra
    dsimp only at hcontra
    unfold DeserializeJwsWriter.finish at hcontra
    dsimp only at hcontra
    unfold encFinish at hcontra
    dsimp only at hcontra
    cases hver : V.verify (if buf2.isEmpty then a2 else
        V.write a2 (b64encode buf2)) sg with
    | none =>
      rw [hver] at hcontra
      cases hcontra
    | some b =>
      rw [hver] at hcontra
      cases b with
      | false => cases hcontra
      | true => cases hcontra

/-- C10 witness: the fixed-verifier `deserialize` on a malformed token
fails with a format error — never `VerifierNotFound`. -/
theorem C10_no_verifier_not_found_witness :
    JwsError.isFormat JwsError.headerFormatError = true ∧
    deserialize traceVerify [97] [] ([] : List Nat) ≠
      Except.error JwsError.verifierNotFound :=
  ⟨(C10_no_verifier_not_found traceVerify [97] [] []).1
      JwsError.headerFormatError rfl,
   (C10_no_verifier_not_found traceVerify [97] [] []).2⟩

end DetachedJws
